import Mathlib

/-!
# Verification of the acid order-preserving key codec

Shallow embedding of `src/ext/keylib.c` and `src/ext/key.c` (the element
codec, the batch codec and the Key object of the acid store), together with
proofs of the specification's claims about them.

Bytes are modelled as `Nat` (with explicit `< 256` bounds where the C relies
on `uint8_t` truncation, written `% 256`).  The growable writer of the C code
is modelled by the list of bytes it has produced; the bounded reader by the
list of bytes it has not yet consumed.  Fallible decoding returns `Option`.
-/

namespace Acid

/-- Modelled from the spec: the element kind tag constants live in `acid.h`,
which is not part of the two sources.  Per spec §3 the tags are single bytes
`< 0x80`, pairwise distinct, ordered `NULL < NEG_INTEGER < INTEGER <
NEG_TIME < TIME < BOOL < BLOB < TEXT < UUID` with `SEP` below all of them,
and `INTEGER = 0x15` (spec §8 scenario 1). -/
def KIND_SEP : Nat := 2

/-- Modelled from the spec: see `KIND_SEP`. -/
def KIND_NULL : Nat := 15

/-- Modelled from the spec: see `KIND_SEP`. -/
def KIND_NEG_INTEGER : Nat := 20

/-- Modelled from the spec: see `KIND_SEP`. -/
def KIND_INTEGER : Nat := 21

/-- Modelled from the spec: see `KIND_SEP`. -/
def KIND_NEG_TIME : Nat := 22

/-- Modelled from the spec: see `KIND_SEP`. -/
def KIND_TIME : Nat := 23

/-- Modelled from the spec: see `KIND_SEP`. -/
def KIND_BOOL : Nat := 30

/-- Modelled from the spec: see `KIND_SEP`. -/
def KIND_BLOB : Nat := 40

/-- Modelled from the spec: see `KIND_SEP`. -/
def KIND_TEXT : Nat := 50

/-- Modelled from the spec: see `KIND_SEP`. -/
def KIND_UUID : Nat := 90

/-- Byte-wise lexicographic strict order on byte strings (`memcmp` order,
with a proper initial segment sorting below the longer string). -/
def bytesLT : List Nat → List Nat → Bool
  | _, [] => false
  | [], _ :: _ => true
  | a :: as, b :: bs => if a < b then true else if b < a then false else bytesLT as bs

/-- Tail of `write_int` (keylib.c:204-234) for `v > 67823`: the progressive
type byte starts at `0xfa` and is incremented once for every extra
high-order payload byte written; all output bytes are XORed with `xor`. -/
def write_int_big (v xor : Nat) : List Nat :=
  (xor ^^^ (0xfa
      + (if v > 0xffffffffffffff then 1 else 0)
      + (if v > 0xffffffffffff then 1 else 0)
      + (if v > 0xffffffffff then 1 else 0)
      + (if v > 0xffffffff then 1 else 0)
      + (if v > 0xffffff then 1 else 0)))
  :: ((if v > 0xffffffffffffff then [xor ^^^ ((v >>> 56) % 256)] else [])
   ++ (if v > 0xffffffffffff then [xor ^^^ ((v >>> 48) % 256)] else [])
   ++ (if v > 0xffffffffff then [xor ^^^ ((v >>> 40) % 256)] else [])
   ++ (if v > 0xffffffff then [xor ^^^ ((v >>> 32) % 256)] else [])
   ++ (if v > 0xffffff then [xor ^^^ ((v >>> 24) % 256)] else [])
   ++ [xor ^^^ ((v >>> 16) % 256), xor ^^^ ((v >>> 8) % 256), xor ^^^ (v % 256)])

/-- The order-preserving varint encoder `write_int` (keylib.c:181-236).
`kind`, when nonzero, is emitted first and is not XORed. -/
def write_int (v kind xor : Nat) : List Nat :=
  (if kind ≠ 0 then [kind] else []) ++
  (if v ≤ 240 then [xor ^^^ v]
   else if v ≤ 2287 then
     [xor ^^^ (241 + ((v - 240) >>> 8)), xor ^^^ ((v - 240) % 256)]
   else if v ≤ 67823 then
     [xor ^^^ 0xf9, xor ^^^ (((v - 2288) >>> 8) % 256), xor ^^^ ((v - 2288) % 256)]
   else write_int_big v xor)

/-- Big-endian accumulation of the trailing payload bytes of a long varint,
mirroring the shift-or chain of `read_plain_int` (keylib.c:548-567). -/
def beVal (xor : Nat) : List Nat → Nat → Nat
  | [], acc => acc
  | b :: rest, acc => beVal xor rest (256 * acc + (xor ^^^ b))

/-- The varint decoder `read_plain_int` (keylib.c:523-571).  Returns the
decoded value and the unconsumed remainder, or `none` where the C sets an
exception (truncated input). -/
def read_plain_int (xor : Nat) : List Nat → Option (Nat × List Nat)
  | [] => none
  | b :: rest =>
    let ch := xor ^^^ b
    if ch ≤ 240 then some (ch, rest)
    else if ch ≤ 248 then
      match rest with
      | [] => none
      | b1 :: r => some (240 + 256 * (ch - 241) + (xor ^^^ b1), r)
    else if ch = 249 then
      match rest with
      | b1 :: b2 :: r => some (2288 + 256 * (xor ^^^ b1) + (xor ^^^ b2), r)
      | _ => none
    else
      if (8 - (255 - ch)) ≤ rest.length then
        some (beVal xor (rest.take (8 - (255 - ch))) 0, rest.drop (8 - (255 - ch)))
      else none

/-- Big-endian byte list of the low `n` bytes of `v` (most significant
first); proof-side normal form for the payload of a long varint. -/
def beBytes : Nat → Nat → List Nat
  | 0, _ => []
  | n+1, v => ((v >>> (8*n)) % 256) :: beBytes n v

/-- Number of extra high-order bytes the progressive ladder of
`write_int_big` emits. -/
def bigK (v : Nat) : Nat :=
  (if v > 0xffffffffffffff then 1 else 0)
  + (if v > 0xffffffffffff then 1 else 0)
  + (if v > 0xffffffffff then 1 else 0)
  + (if v > 0xffffffff then 1 else 0)
  + (if v > 0xffffff then 1 else 0)

theorem bigK_le (v : Nat) : bigK v ≤ 5 := by
  unfold bigK; split_ifs <;> omega

theorem bigK_bound (v : Nat) (hv : v < 2^64) : v < 2^(8*(3 + bigK v)) := by
  unfold bigK; split_ifs <;> norm_num <;> omega

theorem bigK_pos_bound (v : Nat) (hv : 67823 < v) : 2^(8*(2 + bigK v)) ≤ v := by
  unfold bigK; split_ifs <;> norm_num <;> omega

theorem beBytes_length (n v : Nat) : (beBytes n v).length = n := by
  induction n with
  | zero => rfl
  | succ n ih => simp [beBytes, ih]

theorem write_int_big_eq (v xor : Nat) :
    write_int_big v xor =
      (xor ^^^ (0xfa + bigK v)) :: (beBytes (3 + bigK v) v).map (fun b => xor ^^^ b) := by
  unfold write_int_big bigK
  by_cases h56 : v > 0xffffffffffffff <;>
    by_cases h48 : v > 0xffffffffffff <;>
      by_cases h40 : v > 0xffffffffff <;>
        by_cases h32 : v > 0xffffffff <;>
          by_cases h24 : v > 0xffffff <;>
            first
              | omega
              | (simp only [if_pos, if_neg, h56, h48, h40, h32, h24, ite_true, ite_false,
                  not_true, not_false_iff]
                 norm_num [beBytes])

theorem beVal_beBytes (xor : Nat) : ∀ n v acc : Nat,
    beVal xor ((beBytes n v).map (fun b => xor ^^^ b)) acc = acc * 2^(8*n) + v % 2^(8*n) := by
  intro n
  induction n with
  | zero => intro v acc; simp [beBytes, beVal, Nat.mod_one]
  | succ n ih =>
    intro v acc
    have hpow : 2^(8*(n+1)) = 2^(8*n) * 2^8 := by rw [← pow_add]; ring_nf
    simp only [beBytes, List.map_cons, beVal, Nat.xor_cancel_left, ih]
    rw [hpow, Nat.mod_mul, Nat.shiftRight_eq_div_pow]
    ring

theorem xor_byte_lt (xor b : Nat) (hx : xor < 256) (hb : b < 256) : xor ^^^ b < 256 := by
  have h := @Nat.xor_lt_two_pow xor b 8 (by norm_num [hx]) (by norm_num [hb])
  norm_num at h; exact h

/-- Round-trip of the bare varint: decoding with the same XOR mask undoes
`write_int` (no kind byte) and consumes exactly the emitted bytes. -/
theorem read_write_int (v xor : Nat) (hv : v < 2^64) (rest : List Nat) :
    read_plain_int xor (write_int v 0 xor ++ rest) = some (v, rest) := by
  have hx : ∀ a : Nat, xor ^^^ (xor ^^^ a) = a := fun a => Nat.xor_cancel_left xor a
  unfold write_int
  simp only [ne_eq, not_true_eq_false, ite_false, List.nil_append]
  by_cases h1 : v ≤ 240
  · rw [if_pos h1]
    simp [read_plain_int, hx, h1]
  · rw [if_neg h1]
    by_cases h2 : v ≤ 2287
    · rw [if_pos h2]
      have hsh : (v - 240) >>> 8 = (v - 240) / 256 := by
        rw [Nat.shiftRight_eq_div_pow]
      simp only [List.cons_append, List.nil_append, read_plain_int, hx, hsh]
      rw [if_neg (by omega), if_pos (by omega)]
      simp only [hx, Option.some.injEq, Prod.mk.injEq, and_true]
      omega
    · rw [if_neg h2]
      by_cases h3 : v ≤ 67823
      · rw [if_pos h3]
        have hsh : (v - 2288) >>> 8 = (v - 2288) / 256 := by
          rw [Nat.shiftRight_eq_div_pow]
        simp only [List.cons_append, List.nil_append, read_plain_int, hx, hsh]
        rw [if_neg (by omega), if_neg (by omega)]
        simp only [if_true, hx, Option.some.injEq, Prod.mk.injEq, and_true]
        have hm : (v - 2288) / 256 % 256 = (v - 2288) / 256 := Nat.mod_eq_of_lt (by omega)
        rw [hm]; omega
      · rw [if_neg h3]
        rw [write_int_big_eq]
        have hk := bigK_le v
        have hlen : ((beBytes (3 + bigK v) v).map (fun b => xor ^^^ b)).length = 3 + bigK v := by
          rw [List.length_map, beBytes_length]
        simp only [List.cons_append, read_plain_int, hx]
        rw [if_neg (by omega), if_neg (by omega), if_neg (by omega)]
        have hn : 8 - (255 - (0xfa + bigK v)) = 3 + bigK v := by omega
        rw [hn, if_pos (by rw [List.length_append, hlen]; omega)]
        rw [List.take_append_of_le_length (by omega), List.take_of_length_le (by omega),
            List.drop_append_of_le_length (by omega), List.drop_eq_nil_of_le (by omega),
            List.nil_append]
        rw [beVal_beBytes]
        have := bigK_bound v hv
        simp only [Nat.zero_mul, Nat.zero_add]
        rw [Nat.mod_eq_of_lt this]

theorem bytesLT_irrefl : ∀ l : List Nat, bytesLT l l = false
  | [] => rfl
  | a :: as => by simp [bytesLT, Nat.lt_irrefl, bytesLT_irrefl as]

theorem bytesLT_cons_self (c : Nat) (as bs : List Nat) :
    bytesLT (c :: as) (c :: bs) = bytesLT as bs := by
  simp [bytesLT, Nat.lt_irrefl]

theorem bytesLT_head_lt {x y : Nat} (h : x < y) (as bs : List Nat) :
    bytesLT (x :: as) (y :: bs) = true := by
  simp [bytesLT, h]

theorem bytesLT_asymm : ∀ x y : List Nat, bytesLT x y = true → bytesLT y x = false
  | x, [], h => by cases x <;> simp [bytesLT] at h
  | [], _ :: _, _ => rfl
  | a :: as, b :: bs, h => by
    by_cases hab : a < b
    · simp [bytesLT, hab, Nat.lt_asymm hab]
    · by_cases hba : b < a
      · simp [bytesLT, hba, Nat.lt_asymm hba] at h
      · have heq : a = b := by omega
        subst heq
        rw [bytesLT_cons_self] at h
        rw [bytesLT_cons_self]
        exact bytesLT_asymm as bs h

theorem beBytes_mod : ∀ n m v : Nat, n ≤ m → beBytes n (v % 2^(8*m)) = beBytes n v := by
  intro n
  induction n with
  | zero => intro m v _; rfl
  | succ n ih =>
    intro m v hnm
    have h1 : ((v % 2^(8*m)) >>> (8*n)) % 256 = (v >>> (8*n)) % 256 := by
      rw [Nat.shiftRight_eq_div_pow, Nat.shiftRight_eq_div_pow]
      have hm : (2:Nat)^(8*m) = 2^(8*n) * 2^(8*(m-n)) := by
        rw [← pow_add]; congr 1; omega
      rw [hm, Nat.mod_mul_right_div_self]
      have hdvd : (256:Nat) ∣ 2^(8*(m-n)) := by
        have h8 : (256:Nat) = 2^8 := by norm_num
        rw [h8]; exact pow_dvd_pow 2 (by omega)
      rw [Nat.mod_mod_of_dvd _ hdvd]
    simp only [beBytes, h1, ih m v (by omega)]

/-- Big-endian byte lists of a common length compare lexicographically as
the numbers they denote. -/
theorem beLT : ∀ n a b : Nat, a < b → b < 2^(8*n) →
    bytesLT (beBytes n a) (beBytes n b) = true := by
  intro n
  induction n with
  | zero => intro a b hab hb; norm_num at hb; omega
  | succ n ih =>
    intro a b hab hb
    have hpow : (2:Nat)^(8*(n+1)) = 2^(8*n) * 256 := by
      rw [show 8*(n+1) = 8*n + 8 by ring, pow_add]; norm_num
    have hMpos : 0 < 2^(8*n) := Nat.pos_pow_of_pos _ (by norm_num)
    have hbdiv : b / 2^(8*n) < 256 := Nat.div_lt_of_lt_mul (by omega)
    have hadiv : a / 2^(8*n) ≤ b / 2^(8*n) := Nat.div_le_div_right (le_of_lt hab)
    simp only [beBytes, Nat.shiftRight_eq_div_pow]
    by_cases hlt : a / 2^(8*n) < b / 2^(8*n)
    · have ha1 : a / 2^(8*n) % 256 = a / 2^(8*n) := Nat.mod_eq_of_lt (by omega)
      have hb1 : b / 2^(8*n) % 256 = b / 2^(8*n) := Nat.mod_eq_of_lt hbdiv
      rw [ha1, hb1]
      exact bytesLT_head_lt hlt _ _
    · have heq : a / 2^(8*n) = b / 2^(8*n) := by omega
      rw [heq, bytesLT_cons_self]
      rw [← beBytes_mod n n a (le_refl n), ← beBytes_mod n n b (le_refl n)]
      have e1 := Nat.div_add_mod a (2^(8*n))
      have e2 := Nat.div_add_mod b (2^(8*n))
      rw [heq] at e1
      exact ih _ _ (by omega) (Nat.mod_lt b hMpos)

theorem enc_le240 (v : Nat) (h : v ≤ 240) : write_int v 0 0 = [v] := by
  unfold write_int
  simp [h]

theorem enc_le2287 (v : Nat) (h0 : 240 < v) (h : v ≤ 2287) :
    write_int v 0 0 = [241 + (v - 240) / 256, (v - 240) % 256] := by
  unfold write_int
  simp only [ne_eq, not_true_eq_false, ite_false, List.nil_append]
  rw [if_neg (by omega), if_pos h]
  simp [Nat.shiftRight_eq_div_pow]

theorem enc_le67823 (v : Nat) (h0 : 2287 < v) (h : v ≤ 67823) :
    write_int v 0 0 = [249, (v - 2288) / 256, (v - 2288) % 256] := by
  unfold write_int
  simp only [ne_eq, not_true_eq_false, ite_false, List.nil_append]
  rw [if_neg (by omega), if_neg (by omega), if_pos h]
  have hm : (v - 2288) / 256 % 256 = (v - 2288) / 256 := Nat.mod_eq_of_lt (by omega)
  simp [Nat.shiftRight_eq_div_pow, hm]

theorem enc_big (v : Nat) (h : 67823 < v) :
    write_int v 0 0 = (250 + bigK v) :: beBytes (3 + bigK v) v := by
  unfold write_int
  simp only [ne_eq, not_true_eq_false, ite_false, List.nil_append]
  rw [if_neg (by omega), if_neg (by omega), if_neg (by omega), write_int_big_eq]
  simp

theorem bigK_mono (a b : Nat) (ha : 67823 < a) (hab : a ≤ b) (hb : b < 2^64) :
    bigK a ≤ bigK b := by
  by_contra hcon
  push_neg at hcon
  have h1 : b < 2^(8*(3 + bigK b)) := bigK_bound b hb
  have h2 : 2^(8*(2 + bigK a)) ≤ a := bigK_pos_bound a ha
  have h3 : (2:Nat)^(8*(3 + bigK b)) ≤ 2^(8*(2 + bigK a)) :=
    Nat.pow_le_pow_right (by norm_num) (by omega)
  omega

/-- Strict monotonicity of the bare varint encoding in lexicographic byte
order. -/
theorem write_int_mono (a b : Nat) (hab : a < b) (hb : b < 2^64) :
    bytesLT (write_int a 0 0) (write_int b 0 0) = true := by
  by_cases ha1 : a ≤ 240
  · rw [enc_le240 a ha1]
    by_cases hb1 : b ≤ 240
    · rw [enc_le240 b hb1]; exact bytesLT_head_lt hab _ _
    · by_cases hb2 : b ≤ 2287
      · rw [enc_le2287 b (by omega) hb2]; exact bytesLT_head_lt (by omega) _ _
      · by_cases hb3 : b ≤ 67823
        · rw [enc_le67823 b (by omega) hb3]; exact bytesLT_head_lt (by omega) _ _
        · rw [enc_big b (by omega)]; exact bytesLT_head_lt (by omega) _ _
  · by_cases ha2 : a ≤ 2287
    · rw [enc_le2287 a (by omega) ha2]
      by_cases hb2 : b ≤ 2287
      · rw [enc_le2287 b (by omega) hb2]
        by_cases hdl : (a - 240) / 256 < (b - 240) / 256
        · exact bytesLT_head_lt (by omega) _ _
        · have heq : (a - 240) / 256 = (b - 240) / 256 := by
            have h := @Nat.div_le_div_right (a - 240) (b - 240) 256
              (Nat.sub_le_sub_right (le_of_lt hab) 240)
            omega
          rw [heq, bytesLT_cons_self]
          exact bytesLT_head_lt (by omega) _ _
      · by_cases hb3 : b ≤ 67823
        · rw [enc_le67823 b (by omega) hb3]
          exact bytesLT_head_lt (by omega) _ _
        · rw [enc_big b (by omega)]
          exact bytesLT_head_lt (by omega) _ _
    · by_cases ha3 : a ≤ 67823
      · rw [enc_le67823 a (by omega) ha3]
        by_cases hb3 : b ≤ 67823
        · rw [enc_le67823 b (by omega) hb3]
          rw [bytesLT_cons_self]
          by_cases hdl : (a - 2288) / 256 < (b - 2288) / 256
          · exact bytesLT_head_lt hdl _ _
          · have heq : (a - 2288) / 256 = (b - 2288) / 256 := by
              have h := @Nat.div_le_div_right (a - 2288) (b - 2288) 256
                (Nat.sub_le_sub_right (le_of_lt hab) 2288)
              omega
            rw [heq, bytesLT_cons_self]
            exact bytesLT_head_lt (by omega) _ _
        · rw [enc_big b (by omega)]
          exact bytesLT_head_lt (by omega) _ _
      · rw [enc_big a (by omega), enc_big b (by omega)]
        have hkm : bigK a ≤ bigK b := bigK_mono a b (by omega) (le_of_lt hab) hb
        by_cases hk : bigK a < bigK b
        · exact bytesLT_head_lt (by omega) _ _
        · have hkeq : bigK a = bigK b := by omega
          rw [hkeq, bytesLT_cons_self]
          have hbb : b < 2^(8*(3 + bigK b)) := bigK_bound b hb
          exact beLT _ a b hab hbb

/-- Claim C1: for every pair of unsigned 64-bit integers, the bare varint
encodings produced by `write_int` (xor = 0, no kind byte) compare in
lexicographic byte order exactly as the values compare numerically, and
`read_plain_int` recovers every encoded value exactly. -/
theorem c1_varint_order_and_roundtrip (a b : Nat) (ha : a < 2^64) (hb : b < 2^64) :
    (bytesLT (write_int a 0 0) (write_int b 0 0) = true ↔ a < b) ∧
    read_plain_int 0 (write_int a 0 0) = some (a, []) := by
  constructor
  · constructor
    · intro h
      rcases Nat.lt_trichotomy a b with hlt | heq | hgt
      · exact hlt
      · subst heq; rw [bytesLT_irrefl] at h; cases h
      · have h2 := write_int_mono b a hgt ha
        have h3 := bytesLT_asymm _ _ h2
        rw [h] at h3; cases h3
    · intro h; exact write_int_mono a b h hb
  · have h := read_write_int a 0 ha []
    simpa using h

/-- Witness for C1 at the 240/241 boundary. -/
theorem c1_witness :
    ((bytesLT (write_int 240 0 0) (write_int 241 0 0) = true ↔ 240 < 241) ∧
     read_plain_int 0 (write_int 240 0 0) = some (240, [])) :=
  c1_varint_order_and_roundtrip 240 241 (by decide) (by decide)

/-- The 7-bit sliding-window escape loop of `write_str` (keylib.c:281-299).
State: `shift ∈ [1,7]` and the pending `trailer` carry byte; after the last
input byte a final trailer byte is flushed when `shift > 1`. -/
def write_str_loop (shift trailer : Nat) : List Nat → List Nat
  | [] => if shift > 1 then [0x80 ||| trailer] else []
  | o :: rest =>
    (0x80 ||| trailer ||| (o >>> shift)) ::
      (if shift < 7 then write_str_loop (shift + 1) ((o <<< (7 - shift)) % 256) rest
       else (0x80 ||| o) :: write_str_loop 1 0 rest)

/-- The string escape `write_str` (keylib.c:268-301): optional kind byte,
then the escaped payload. -/
def write_str (p : List Nat) (kind : Nat) : List Nat :=
  (if kind ≠ 0 then [kind] else []) ++ write_str_loop 1 0 p

/-- Decode loop of `read_str` (keylib.c:625-645).  `lb` is the previously
read payload byte; returns the decoded bytes and the unconsumed input
(the first byte `< 0x80` terminates the string and is left unread). -/
def read_str_loop (shift lb : Nat) : List Nat → List Nat × List Nat
  | [] => ([], [])
  | cb :: rest =>
    if cb < 0x80 then ([], cb :: rest)
    else
      let ch := ((lb <<< shift) % 256) ||| ((cb &&& 0x7f) >>> (7 - shift))
      if shift < 7 then
        let pr := read_str_loop (shift + 1) cb rest
        (ch :: pr.1, pr.2)
      else
        match rest with
        | [] => ([ch], [])
        | lb2 :: rest2 =>
          if lb2 < 0x80 then ([ch], lb2 :: rest2)
          else
            let pr := read_str_loop 1 lb2 rest2
            (ch :: pr.1, pr.2)

/-- The string decoder `read_str` (keylib.c:599-646). -/
def read_str : List Nat → List Nat × List Nat
  | [] => ([], [])
  | lb :: rest =>
    if lb < 0x80 then ([], lb :: rest)
    else read_str_loop 1 lb rest

theorem lor_eq_add_of_mod {t a k : Nat} (ht : t % 2^k = 0) (ha : a < 2^k) :
    t ||| a = t + a := by
  obtain ⟨m, hm⟩ : 2^k ∣ t := Nat.dvd_of_mod_eq_zero ht
  subst hm
  apply Nat.eq_of_testBit_eq
  intro j
  rw [Nat.testBit_lor, Nat.testBit_mul_pow_two_add m ha j, Nat.testBit_mul_pow_two]
  by_cases hj : j < k
  · simp [hj, Nat.not_le.mpr hj]
  · have hb2 : a < 2^j := lt_of_lt_of_le ha (Nat.pow_le_pow_right (by norm_num) (by omega))
    simp [hj, Nat.testBit_lt_two_pow hb2, Nat.le_of_not_lt hj]

set_option maxRecDepth 2000 in
theorem or128 : ∀ z, z < 256 → (0x80 ||| z) = 128 + z % 128 := by decide

theorem byte_lor_lt (x y : Nat) (hx : x < 256) (hy : y < 256) : x ||| y < 256 := by
  have h := @Nat.or_lt_two_pow x y 8 (by norm_num [hx]) (by norm_num [hy])
  norm_num at h; exact h

theorem dvd_gap {d a b : Nat} (hda : d ∣ a) (hdb : d ∣ b) (h : a < b) : a + d ≤ b := by
  obtain ⟨m, rfl⟩ := hda
  obtain ⟨n, rfl⟩ := hdb
  have hmn : m < n := Nat.lt_of_mul_lt_mul_left h
  have h2 := Nat.mul_le_mul_left d (Nat.succ_le_of_lt hmn)
  rw [Nat.mul_succ] at h2
  omega

theorem div_shift_lt (o s : Nat) (ho : o < 256) (hs : s ≤ 8) : o / 2^s < 2^(8-s) := by
  apply Nat.div_lt_of_lt_mul
  have hps : (2:Nat)^s * 2^(8-s) = 256 := by
    rw [← pow_add, show s + (8-s) = 8 by omega]; norm_num
  omega

theorem mod128_add {s t u : Nat} (hs1 : 1 ≤ s) (hs7 : s ≤ 7) (ht : t < 256)
    (htm : t % 2^(8-s) = 0) (hu : u < 2^(8-s)) :
    t % 128 + u < 128 ∧ (t + u) % 128 = t % 128 + u := by
  have hd128 : 2^(8-s) ∣ 128 := by
    rw [show (128:Nat) = 2^7 by norm_num]; exact pow_dvd_pow 2 (by omega)
  have hdt : 2^(8-s) ∣ t := Nat.dvd_of_mod_eq_zero htm
  have hdtm : 2^(8-s) ∣ t % 128 := (Nat.dvd_mod_iff hd128).mpr hdt
  have hmlt : t % 128 < 128 := Nat.mod_lt _ (by norm_num)
  have h1 : t % 128 + 2^(8-s) ≤ 128 := dvd_gap hdtm hd128 hmlt
  refine ⟨by omega, ?_⟩
  conv_lhs => rw [show t + u = 128 * (t/128) + (t%128 + u) by omega]
  rw [Nat.mul_add_mod, Nat.mod_eq_of_lt (by omega)]

theorem trailer_eq (x s : Nat) (hs1 : 1 ≤ s) (hs7 : s ≤ 7) :
    (x <<< (7-s)) % 256 = (x % 2^(s+1)) * 2^(7-s) := by
  rw [Nat.shiftLeft_eq]
  rw [show (256:Nat) = 2^(s+1) * 2^(7-s) by
    rw [← pow_add, show s+1+(7-s) = 8 by omega]; norm_num]
  rw [Nat.mul_mod_mul_right]

theorem trailer_lt_of (x y s : Nat) (hs1 : 1 ≤ s) (hs7 : s ≤ 7)
    (hdiv : x / 2^s = y / 2^s) (hxy : x < y) :
    x % 2^(s+1) < y % 2^(s+1) := by
  have e1 := Nat.div_add_mod x (2^s)
  have e2 := Nat.div_add_mod y (2^s)
  rw [hdiv] at e1
  have hlt : x % 2^s < y % 2^s := by omega
  rw [show (2:Nat)^(s+1) = 2^s * 2 from pow_succ 2 s]
  have hx1 : x % (2^s * 2) = x % 2^s + 2^s * (x / 2^s % 2) := Nat.mod_mul
  have hy1 : y % (2^s * 2) = y % 2^s + 2^s * (y / 2^s % 2) := Nat.mod_mul
  rw [hdiv] at hx1
  omega

theorem trailer_div128 (x s : Nat) (hs1 : 1 ≤ s) (hs7 : s ≤ 7) :
    ((x % 2^(s+1)) * 2^(7-s)) / 128 = x / 2^s % 2 := by
  rw [show (128:Nat) = 2^s * 2^(7-s) by
    rw [← pow_add, show s+(7-s) = 7 by omega]; norm_num]
  rw [Nat.mul_div_mul_right _ _ (Nat.pos_pow_of_pos (7-s) (by norm_num))]
  rw [show (2:Nat)^(s+1) = 2^s * 2 from pow_succ 2 s]
  exact Nat.mod_mul_right_div_self x (2^s) 2

/-- Arithmetic normal form of `0x80 | t | w` for a trailer `t` and a low
part `w` that fits below the trailer's bits. -/
theorem emit_norm_w (t w s : Nat) (hs1 : 1 ≤ s) (hs7 : s ≤ 7) (ht : t < 256)
    (htm : t % 2^(8-s) = 0) (hw : w < 2^(8-s)) :
    0x80 ||| t ||| w = 128 + (t % 128 + w) := by
  rw [Nat.lor_assoc, lor_eq_add_of_mod htm hw]
  have hb : t + w < 256 := by
    have hd256 : 2^(8-s) ∣ 256 := by
      rw [show (256:Nat) = 2^8 by norm_num]; exact pow_dvd_pow 2 (by omega)
    have h1 := dvd_gap (Nat.dvd_of_mod_eq_zero htm) hd256 ht
    omega
  rw [or128 _ hb, (mod128_add hs1 hs7 ht htm hw).2]

/-- Arithmetic normal form of an escaped output byte
`0x80 | trailer | (o >> shift)`. -/
theorem emit_norm (t o s : Nat) (hs1 : 1 ≤ s) (hs7 : s ≤ 7) (ht : t < 256)
    (htm : t % 2^(8-s) = 0) (ho : o < 256) :
    0x80 ||| t ||| (o >>> s) = 128 + (t % 128 + o / 2^s) := by
  rw [Nat.shiftRight_eq_div_pow]
  exact emit_norm_w t (o / 2^s) s hs1 hs7 ht htm (div_shift_lt o s ho (by omega))

theorem loop_ne_nil (s t : Nat) (hs : 2 ≤ s) : ∀ l, write_str_loop s t l ≠ []
  | [] => by
    simp only [write_str_loop, gt_iff_lt]
    rw [if_pos (by omega)]
    simp
  | o :: rest => by simp [write_str_loop]

theorem bytesLT_nil_of_ne_nil (l : List Nat) (h : l ≠ []) : bytesLT [] l = true := by
  cases l
  · simp at h
  · rfl

/-- Once the pending trailers diverge (with equal top bit), the escape
outputs are decided at the very next byte, whatever the remaining inputs. -/
theorem loop_diverged (xs ys : List Nat) (s tx ty : Nat)
    (hs2 : 2 ≤ s) (hs7 : s ≤ 7) (htx : tx < 256) (hty : ty < 256)
    (hmx : tx % 2^(8-s) = 0) (hmy : ty % 2^(8-s) = 0)
    (hbit : tx / 128 = ty / 128) (hlt : tx < ty)
    (hxb : ∀ b ∈ xs, b < 256) (hyb : ∀ b ∈ ys, b < 256) :
    bytesLT (write_str_loop s tx xs) (write_str_loop s ty ys) = true := by
  have hd128 : 2^(8-s) ∣ 128 := by
    rw [show (128:Nat) = 2^7 by norm_num]; exact pow_dvd_pow 2 (by omega)
  have hdx : 2^(8-s) ∣ tx % 128 := (Nat.dvd_mod_iff hd128).mpr (Nat.dvd_of_mod_eq_zero hmx)
  have hdy : 2^(8-s) ∣ ty % 128 := (Nat.dvd_mod_iff hd128).mpr (Nat.dvd_of_mod_eq_zero hmy)
  have hmod_lt : tx % 128 < ty % 128 := by omega
  have hgap : tx % 128 + 2^(8-s) ≤ ty % 128 := dvd_gap hdx hdy hmod_lt
  cases xs with
  | nil =>
    cases ys with
    | nil =>
      simp only [write_str_loop, gt_iff_lt]
      rw [if_pos (by omega), if_pos (by omega)]
      rw [or128 tx htx, or128 ty hty]
      exact bytesLT_head_lt (by omega) _ _
    | cons y ys' =>
      have hym : y < 256 := hyb y (by simp)
      simp only [write_str_loop, gt_iff_lt]
      rw [if_pos (show 1 < s by omega)]
      rw [emit_norm ty y s (by omega) hs7 hty hmy hym, or128 tx htx]
      generalize y / 2^s = u
      exact bytesLT_head_lt (by omega) _ _
  | cons x xs' =>
    have hxm : x < 256 := hxb x (by simp)
    have hxdiv := div_shift_lt x s hxm (by omega)
    cases ys with
    | nil =>
      simp only [write_str_loop, gt_iff_lt]
      rw [if_pos (show 1 < s by omega)]
      rw [or128 ty hty, emit_norm tx x s (by omega) hs7 htx hmx hxm]
      revert hxdiv
      generalize x / 2^s = u
      intro hxdiv
      exact bytesLT_head_lt (by omega) _ _
    | cons y ys' =>
      have hym : y < 256 := hyb y (by simp)
      simp only [write_str_loop]
      rw [emit_norm tx x s (by omega) hs7 htx hmx hxm,
          emit_norm ty y s (by omega) hs7 hty hmy hym]
      revert hxdiv
      generalize x / 2^s = u
      generalize y / 2^s = w
      intro hxdiv
      exact bytesLT_head_lt (by omega) _ _

/-- Monotonicity of the escape loop from a common state: lexicographically
smaller input yields lexicographically smaller output. -/
theorem loop_mono : ∀ (xs ys : List Nat) (s t : Nat),
    1 ≤ s → s ≤ 7 → t < 256 → t % 2^(8-s) = 0 →
    (∀ b ∈ xs, b < 256) → (∀ b ∈ ys, b < 256) →
    bytesLT xs ys = true →
    bytesLT (write_str_loop s t xs) (write_str_loop s t ys) = true := by
  intro xs
  induction xs with
  | nil =>
    intro ys s t hs1 hs7 ht htm hxb hyb h
    cases ys with
    | nil => simp [bytesLT] at h
    | cons y ys' =>
      have hy : y < 256 := hyb y (by simp)
      by_cases hs : s = 1
      · subst hs
        simp only [write_str_loop, gt_iff_lt]
        rw [if_neg (by omega)]
        exact bytesLT_nil_of_ne_nil _ (by simp)
      · have hs2 : 2 ≤ s := by omega
        by_cases hu : y / 2^s = 0
        · simp only [write_str_loop, gt_iff_lt]
          rw [if_pos (show 1 < s by omega)]
          rw [Nat.shiftRight_eq_div_pow, hu, Nat.or_zero]
          rw [bytesLT_cons_self]
          by_cases hs7' : s < 7
          · rw [if_pos hs7']
            exact bytesLT_nil_of_ne_nil _ (loop_ne_nil (s+1) _ (by omega) ys')
          · rw [if_neg hs7']
            exact bytesLT_nil_of_ne_nil _ (by simp)
        · simp only [write_str_loop, gt_iff_lt]
          rw [if_pos (show 1 < s by omega)]
          rw [emit_norm t y s hs1 hs7 ht htm hy, or128 t ht]
          revert hu
          generalize y / 2^s = u
          intro hu
          exact bytesLT_head_lt (by omega) _ _
  | cons x xs' ih =>
    intro ys s t hs1 hs7 ht htm hxb hyb h
    cases ys with
    | nil => simp [bytesLT] at h
    | cons y ys' =>
      have hx : x < 256 := hxb x (by simp)
      have hy : y < 256 := hyb y (by simp)
      have hxb' : ∀ b ∈ xs', b < 256 := fun b hb => hxb b (by simp [hb])
      have hyb' : ∀ b ∈ ys', b < 256 := fun b hb => hyb b (by simp [hb])
      by_cases hxy : x < y
      · by_cases hdiv : x / 2^s < y / 2^s
        · simp only [write_str_loop]
          rw [emit_norm t x s hs1 hs7 ht htm hx, emit_norm t y s hs1 hs7 ht htm hy]
          revert hdiv
          generalize x / 2^s = u
          generalize y / 2^s = w
          intro hdiv
          exact bytesLT_head_lt (by omega) _ _
        · have hdeq : x / 2^s = y / 2^s := by
            have hmono := @Nat.div_le_div_right x y (2^s) (le_of_lt hxy)
            omega
          simp only [write_str_loop]
          rw [emit_norm t x s hs1 hs7 ht htm hx, emit_norm t y s hs1 hs7 ht htm hy, hdeq,
              bytesLT_cons_self]
          by_cases hs7' : s < 7
          · rw [if_pos hs7', if_pos hs7']
            have htx' : (x <<< (7-s)) % 256 < 256 := Nat.mod_lt _ (by norm_num)
            have hty' : (y <<< (7-s)) % 256 < 256 := Nat.mod_lt _ (by norm_num)
            have hmx' : (x <<< (7-s)) % 256 % 2^(8-(s+1)) = 0 := by
              rw [show 8-(s+1) = 7-s by omega, trailer_eq x s hs1 hs7]
              exact Nat.mul_mod_left _ _
            have hmy' : (y <<< (7-s)) % 256 % 2^(8-(s+1)) = 0 := by
              rw [show 8-(s+1) = 7-s by omega, trailer_eq y s hs1 hs7]
              exact Nat.mul_mod_left _ _
            have hbit' : (x <<< (7-s)) % 256 / 128 = (y <<< (7-s)) % 256 / 128 := by
              rw [trailer_eq x s hs1 hs7, trailer_eq y s hs1 hs7,
                  trailer_div128 x s hs1 hs7, trailer_div128 y s hs1 hs7, hdeq]
            have hlt' : (x <<< (7-s)) % 256 < (y <<< (7-s)) % 256 := by
              rw [trailer_eq x s hs1 hs7, trailer_eq y s hs1 hs7]
              exact (Nat.mul_lt_mul_right (Nat.pos_pow_of_pos (7-s) (by norm_num))).mpr
                (trailer_lt_of x y s hs1 hs7 hdeq hxy)
            exact loop_diverged xs' ys' (s+1) _ _ (by omega) (by omega) htx' hty'
              hmx' hmy' hbit' hlt' hxb' hyb'
          · have hs7eq : s = 7 := by omega
            subst hs7eq
            have hdeq' : x / 128 = y / 128 := by
              have h128 : (2:Nat)^7 = 128 := by norm_num
              rw [h128] at hdeq; exact hdeq
            rw [if_neg (by omega), if_neg (by omega)]
            rw [or128 x hx, or128 y hy]
            exact bytesLT_head_lt (by omega) _ _
      · by_cases hyx : y < x
        · simp [bytesLT, hxy, hyx] at h
        · have hxeq : x = y := by omega
          subst hxeq
          rw [bytesLT_cons_self] at h
          simp only [write_str_loop]
          rw [bytesLT_cons_self]
          by_cases hs7' : s < 7
          · rw [if_pos hs7', if_pos hs7']
            have hmx' : (x <<< (7-s)) % 256 % 2^(8-(s+1)) = 0 := by
              rw [show 8-(s+1) = 7-s by omega, trailer_eq x s hs1 hs7]
              exact Nat.mul_mod_left _ _
            exact ih ys' (s+1) _ (by omega) (by omega) (Nat.mod_lt _ (by norm_num))
              hmx' hxb' hyb' h
          · rw [if_neg hs7', if_neg hs7']
            rw [bytesLT_cons_self]
            exact ih ys' 1 0 (by omega) (by omega) (by norm_num) (by norm_num) hxb' hyb' h

theorem bytesLT_total : ∀ x y : List Nat, x ≠ y → bytesLT x y = true ∨ bytesLT y x = true
  | [], [], h => absurd rfl h
  | [], _ :: _, _ => Or.inl rfl
  | _ :: _, [], _ => Or.inr rfl
  | a :: as, b :: bs, h => by
    rcases Nat.lt_trichotomy a b with hlt | heq | hgt
    · exact Or.inl (bytesLT_head_lt hlt _ _)
    · subst heq
      have hne : as ≠ bs := fun he => h (by rw [he])
      rcases bytesLT_total as bs hne with h2 | h2
      · exact Or.inl (by rw [bytesLT_cons_self]; exact h2)
      · exact Or.inr (by rw [bytesLT_cons_self]; exact h2)
    · exact Or.inr (bytesLT_head_lt hgt _ _)

theorem write_str_zero (p : List Nat) : write_str p 0 = write_str_loop 1 0 p := by
  simp [write_str]

/-- Every byte the escape loop emits has the high bit set. -/
theorem loop_all_hi : ∀ (l : List Nat) (s t : Nat),
    1 ≤ s → s ≤ 7 → t < 256 → t % 2^(8-s) = 0 → (∀ b ∈ l, b < 256) →
    ∀ b ∈ write_str_loop s t l, 128 ≤ b := by
  intro l
  induction l with
  | nil =>
    intro s t hs1 hs7 ht htm hlb b hb
    simp only [write_str_loop, gt_iff_lt] at hb
    by_cases hs : 1 < s
    · rw [if_pos hs] at hb
      simp only [List.mem_singleton] at hb
      subst hb
      rw [or128 t ht]
      omega
    · rw [if_neg hs] at hb
      simp at hb
  | cons o l' ih =>
    intro s t hs1 hs7 ht htm hlb b hb
    have ho : o < 256 := hlb o (by simp)
    have hlb' : ∀ c ∈ l', c < 256 := fun c hc => hlb c (by simp [hc])
    simp only [write_str_loop, List.mem_cons] at hb
    rcases hb with hb | hb
    · subst hb
      rw [emit_norm t o s hs1 hs7 ht htm ho]
      generalize o / 2^s = u
      omega
    · by_cases hs7' : s < 7
      · rw [if_pos hs7'] at hb
        have hmx' : (o <<< (7-s)) % 256 % 2^(8-(s+1)) = 0 := by
          rw [show 8-(s+1) = 7-s by omega, trailer_eq o s hs1 hs7]
          exact Nat.mul_mod_left _ _
        exact ih (s+1) _ (by omega) (by omega) (Nat.mod_lt _ (by norm_num)) hmx' hlb' b hb
      · rw [if_neg hs7'] at hb
        simp only [List.mem_cons] at hb
        rcases hb with hb | hb
        · subst hb
          rw [or128 o ho]
          omega
        · exact ih 1 0 (by omega) (by omega) (by norm_num) (by norm_num) hlb' b hb

/-- Claim C3: the 7-bit-shift escaped payloads produced by `write_str`
compare in lexicographic byte order exactly as the original byte strings
compare, and every payload byte has its high bit set. -/
theorem c3_str_order_and_highbit (x y : List Nat)
    (hx : ∀ b ∈ x, b < 256) (hy : ∀ b ∈ y, b < 256) :
    (bytesLT (write_str x 0) (write_str y 0) = true ↔ bytesLT x y = true) ∧
    (∀ b ∈ write_str x 0, 0x80 ≤ b) := by
  rw [write_str_zero, write_str_zero]
  refine ⟨⟨?_, ?_⟩, ?_⟩
  · intro h
    rcases eq_or_ne x y with heq | hne
    · subst heq
      rw [bytesLT_irrefl] at h
      cases h
    · rcases bytesLT_total x y hne with h2 | h2
      · exact h2
      · have h3 := loop_mono y x 1 0 (by omega) (by omega) (by norm_num) (by norm_num) hy hx h2
        have h4 := bytesLT_asymm _ _ h3
        rw [h] at h4
        cases h4
  · intro h
    exact loop_mono x y 1 0 (by omega) (by omega) (by norm_num) (by norm_num) hx hy h
  · exact loop_all_hi x 1 0 (by omega) (by omega) (by norm_num) (by norm_num) hx

/-- Witness for C3 at the byte strings `[0]` and `[1]`. -/
theorem c3_witness :
    ((bytesLT (write_str [0] 0) (write_str [1] 0) = true ↔ bytesLT [0] [1] = true) ∧
     (∀ b ∈ write_str [0] 0, 0x80 ≤ b)) :=
  c3_str_order_and_highbit [0] [1] (by decide) (by decide)

/-- Shifting an escaped byte left by `shift` (mod 256) recovers the high
part of the original byte, as `read_str` does. -/
theorem lb_shift (o s t : Nat) (hs1 : 1 ≤ s) (hs7 : s ≤ 7) (ht : t < 256)
    (htm : t % 2^(8-s) = 0) (ho : o < 256) :
    ((0x80 ||| t ||| (o >>> s)) <<< s) % 256 = (o / 2^s) * 2^s := by
  rw [emit_norm t o s hs1 hs7 ht htm ho, Nat.shiftLeft_eq]
  have hd128 : 2^(8-s) ∣ 128 := by
    rw [show (128:Nat) = 2^7 by norm_num]; exact pow_dvd_pow 2 (by omega)
  obtain ⟨m, hm⟩ : 2^(8-s) ∣ t % 128 :=
    (Nat.dvd_mod_iff hd128).mpr (Nat.dvd_of_mod_eq_zero htm)
  have hds : (2:Nat)^(8-s) * 2^s = 256 := by
    rw [← pow_add, show 8-s+s = 8 by omega]; norm_num
  have h128 : (128:Nat) * 2^s = 256 * 2^(s-1) := by
    have hss : (2:Nat)^s = 2 * 2^(s-1) := by
      conv_lhs => rw [show s = 1 + (s-1) by omega]
      rw [pow_add]; ring
    rw [hss]; ring
  have hterm : (t % 128) * 2^s = 256 * m := by
    rw [hm]
    calc 2^(8-s) * m * 2^s = 2^(8-s) * 2^s * m := by ring
      _ = 256 * m := by rw [hds]
  have hu : o / 2^s < 2^(8-s) := div_shift_lt o s ho (by omega)
  have hulow : (o / 2^s) * 2^s < 256 := by
    calc (o/2^s)*2^s < 2^(8-s)*2^s :=
          (Nat.mul_lt_mul_right (Nat.pos_pow_of_pos s (by norm_num))).mpr hu
      _ = 256 := hds
  rw [show (128 + (t % 128 + o / 2^s)) * 2^s
        = 256 * (2^(s-1) + m) + (o/2^s)*2^s by
      rw [Nat.add_mul, Nat.add_mul, h128, hterm]; ring]
  rw [Nat.mul_add_mod]
  exact Nat.mod_eq_of_lt hulow

/-- Masking the following escaped byte with `0x7f` and shifting right
recovers the low part of the original byte. -/
theorem cb_and (o s w : Nat) (hs1 : 1 ≤ s) (hs6 : s ≤ 6) (ho : o < 256)
    (hw : w < 2^(7-s)) :
    ((0x80 ||| ((o <<< (7-s)) % 256) ||| w) &&& 0x7f) >>> (7-s) = o % 2^s := by
  have ht' : (o <<< (7-s)) % 256 < 256 := Nat.mod_lt _ (by norm_num)
  have htm' : (o <<< (7-s)) % 256 % 2^(8-(s+1)) = 0 := by
    rw [show 8-(s+1) = 7-s by omega, trailer_eq o s hs1 (by omega)]
    exact Nat.mul_mod_left _ _
  have hw' : w < 2^(8-(s+1)) := by rw [show 8-(s+1) = 7-s by omega]; exact hw
  rw [emit_norm_w _ w (s+1) (by omega) (by omega) ht' htm' hw']
  have htm128 : (o <<< (7-s)) % 256 % 128 = (o % 2^s) * 2^(7-s) := by
    rw [trailer_eq o s hs1 (by omega)]
    rw [show (128:Nat) = 2^s * 2^(7-s) by
      rw [← pow_add, show s+(7-s) = 7 by omega]; norm_num]
    rw [Nat.mul_mod_mul_right]
    congr 1
    have : (2:Nat)^(s+1) = 2^s * 2 := pow_succ 2 s
    rw [this]
    exact Nat.mod_mul_right_mod o (2^s) 2
  rw [htm128]
  have hlow : (o % 2^s) * 2^(7-s) + w < 128 := by
    have h1 : o % 2^s < 2^s := Nat.mod_lt o (Nat.pos_pow_of_pos s (by norm_num))
    have h2 : ((o % 2^s) + 1) * 2^(7-s) ≤ 2^s * 2^(7-s) :=
      Nat.mul_le_mul_right _ (Nat.succ_le_of_lt h1)
    have h3 : (2:Nat)^s * 2^(7-s) = 128 := by
      rw [← pow_add, show s+(7-s) = 7 by omega]; norm_num
    rw [Nat.add_mul] at h2
    omega
  rw [show (0x7f:Nat) = 2^7 - 1 by norm_num, Nat.and_pow_two_sub_one_eq_mod]
  rw [show (2:Nat)^7 = 128 by norm_num]
  rw [show (128 + ((o % 2^s) * 2^(7-s) + w)) % 128
        = ((o % 2^s) * 2^(7-s) + w) % 128 by
      conv_lhs => rw [show 128 + ((o % 2^s) * 2^(7-s) + w)
          = 128 * 1 + ((o % 2^s) * 2^(7-s) + w) by ring]
      rw [Nat.mul_add_mod]]
  rw [Nat.mod_eq_of_lt hlow, Nat.shiftRight_eq_div_pow]
  rw [show (o % 2^s) * 2^(7-s) + w = 2^(7-s) * (o % 2^s) + w by ring]
  rw [Nat.mul_add_div (Nat.pos_pow_of_pos _ (by norm_num)), Nat.div_eq_of_lt hw]
  rfl

/-- Reassembling the two 7-bit fragments recovers the original byte. -/
theorem ch_eq (o s t w : Nat) (hs1 : 1 ≤ s) (hs6 : s ≤ 6) (ht : t < 256)
    (htm : t % 2^(8-s) = 0) (ho : o < 256) (hw : w < 2^(7-s)) :
    (((0x80 ||| t ||| (o >>> s)) <<< s) % 256) |||
      (((0x80 ||| ((o <<< (7-s)) % 256) ||| w) &&& 0x7f) >>> (7-s)) = o := by
  rw [lb_shift o s t hs1 (by omega) ht htm ho, cb_and o s w hs1 hs6 ho hw]
  rw [@lor_eq_add_of_mod ((o / 2^s) * 2^s) (o % 2^s) s (Nat.mul_mod_left _ _)
      (Nat.mod_lt o (Nat.pos_pow_of_pos s (by norm_num)))]
  rw [Nat.mul_comm]
  exact Nat.div_add_mod o (2^s)

/-- The decode loop does not consume a terminating byte below `0x80`. -/
theorem read_str_loop_stop (s lb : Nat) (rest : List Nat)
    (h : match rest with | [] => True | b :: _ => b < 0x80) :
    read_str_loop s lb rest = ([], rest) := by
  cases rest with
  | nil => rfl
  | cons b r => simp only [read_str_loop]; rw [if_pos h]

/-- Variant of `ch_eq` for the reset step (`shift = 7`), where the next
payload byte is the whole-byte emission `0x80 | o`. -/
theorem ch_eq7 (o t : Nat) (ht : t < 256) (htm : t % 2^(8-7) = 0) (ho : o < 256) :
    (((0x80 ||| t ||| (o >>> 7)) <<< 7) % 256) ||| (((0x80 ||| o) &&& 0x7f) >>> (7-7)) = o := by
  rw [lb_shift o 7 t (by omega) (by omega) ht htm ho]
  have h1 : (0x80 ||| o) &&& 0x7f = o % 128 := by
    rw [or128 o ho, show (0x7f:Nat) = 2^7-1 by norm_num, Nat.and_pow_two_sub_one_eq_mod]
    rw [show (2:Nat)^7 = 128 by norm_num]
    conv_lhs => rw [show (128 + o % 128) = 128*1 + o % 128 by ring]
    rw [Nat.mul_add_mod]
    exact Nat.mod_eq_of_lt (Nat.mod_lt o (by norm_num))
  rw [h1, show 7-7 = 0 by norm_num, Nat.shiftRight_zero]
  rw [@lor_eq_add_of_mod ((o/2^7)*2^7) (o % 128) 7 (Nat.mul_mod_left _ _)
      (by rw [show (2:Nat)^7 = 128 by norm_num]; exact Nat.mod_lt o (by norm_num))]
  rw [Nat.mul_comm]
  have h2 := Nat.div_add_mod o (2^7)
  rw [show (2:Nat)^7 = 128 from by norm_num] at h2
  rw [show (2:Nat)^7 = 128 from by norm_num]
  exact h2

/-- Decoding inverts the escape loop: from matching encoder/decoder states,
`read_str_loop` recovers the original bytes and stops exactly at `rest`. -/
theorem read_str_loop_inv : ∀ (xs : List Nat) (o s t : Nat) (rest : List Nat),
    1 ≤ s → s ≤ 7 → t < 256 → t % 2^(8-s) = 0 → o < 256 → (∀ b ∈ xs, b < 256) →
    (match rest with | [] => True | b :: _ => b < 0x80) →
    read_str_loop s (0x80 ||| t ||| (o >>> s))
      ((if s < 7 then write_str_loop (s+1) ((o <<< (7-s)) % 256) xs
        else (0x80 ||| o) :: write_str_loop 1 0 xs) ++ rest)
      = (o :: xs, rest) := by
  intro xs
  induction xs with
  | nil =>
    intro o s t rest hs1 hs7 ht htm ho _ hrest
    have ht' : (o <<< (7-s)) % 256 < 256 := Nat.mod_lt _ (by norm_num)
    by_cases hs' : s < 7
    · have htm' : (o <<< (7-s)) % 256 % 2^(8-(s+1)) = 0 := by
        rw [show 8-(s+1) = 7-s by omega, trailer_eq o s hs1 hs7]
        exact Nat.mul_mod_left _ _
      rw [if_pos hs']
      rw [show write_str_loop (s+1) ((o <<< (7-s)) % 256) [] =
            [0x80 ||| ((o <<< (7-s)) % 256)] by
          simp only [write_str_loop, gt_iff_lt]; rw [if_pos (by omega)]]
      simp only [List.cons_append, List.nil_append, read_str_loop]
      rw [if_neg (by rw [or128 _ ht']; omega)]
      rw [if_pos hs']
      rw [read_str_loop_stop _ _ rest hrest]
      rw [show (0x80 ||| ((o <<< (7-s)) % 256)) =
            0x80 ||| ((o <<< (7-s)) % 256) ||| 0 from (Nat.or_zero _).symm]
      rw [ch_eq o s t 0 hs1 (by omega) ht htm ho (Nat.pos_pow_of_pos _ (by norm_num))]
    · have hs7e : s = 7 := by omega
      subst hs7e
      rw [if_neg (by omega)]
      rw [show write_str_loop 1 0 ([]:List Nat) = [] by
        simp only [write_str_loop, gt_iff_lt]; rw [if_neg (by omega)]]
      simp only [List.cons_append, List.nil_append, read_str_loop]
      rw [if_neg (by rw [or128 o ho]; omega)]
      rw [if_neg (by omega)]
      cases rest with
      | nil =>
        simp only []
        rw [ch_eq7 o t ht htm ho]
      | cons r0 r' =>
        simp only []
        rw [if_pos hrest]
        rw [ch_eq7 o t ht htm ho]
  | cons o2 xs' ih =>
    intro o s t rest hs1 hs7 ht htm ho hxb hrest
    have ho2 : o2 < 256 := hxb o2 (by simp)
    have hxb' : ∀ b ∈ xs', b < 256 := fun b hb => hxb b (by simp [hb])
    have ht' : (o <<< (7-s)) % 256 < 256 := Nat.mod_lt _ (by norm_num)
    by_cases hs' : s < 7
    · have htm' : (o <<< (7-s)) % 256 % 2^(8-(s+1)) = 0 := by
        rw [show 8-(s+1) = 7-s by omega, trailer_eq o s hs1 hs7]
        exact Nat.mul_mod_left _ _
      have hw : o2 >>> (s+1) < 2^(7-s) := by
        rw [Nat.shiftRight_eq_div_pow]
        have h := div_shift_lt o2 (s+1) ho2 (by omega)
        rw [show 8-(s+1) = 7-s by omega] at h
        exact h
      rw [if_pos hs']
      simp only [write_str_loop, List.cons_append, read_str_loop]
      rw [if_neg (by
        rw [emit_norm _ o2 (s+1) (by omega) (by omega) ht' htm' ho2]
        generalize o2 / 2^(s+1) = u
        omega)]
      rw [if_pos hs']
      rw [ih o2 (s+1) ((o <<< (7-s)) % 256) rest (by omega) (by omega) ht' htm' ho2 hxb' hrest]
      rw [ch_eq o s t (o2 >>> (s+1)) hs1 (by omega) ht htm ho hw]
    · have hs7e : s = 7 := by omega
      subst hs7e
      rw [if_neg (by omega)]
      simp only [write_str_loop, List.cons_append, read_str_loop]
      rw [if_neg (by rw [or128 o ho]; omega)]
      rw [if_neg (by omega)]
      rw [if_neg (by
        rw [emit_norm 0 o2 1 (by omega) (by omega) (by norm_num) (by norm_num) ho2]
        generalize o2 / 2^1 = u
        omega)]
      simp only [List.append_eq]
      rw [ih o2 1 0 rest (by omega) (by omega) (by norm_num) (by norm_num) ho2 hxb' hrest]
      rw [ch_eq7 o t ht htm ho]

/-- Decoding consumes exactly the escaped payload and recovers the input,
provided what follows (if anything) starts with a byte `< 0x80`. -/
theorem read_write_str (x : List Nat) (rest : List Nat)
    (hx : ∀ b ∈ x, b < 256)
    (hrest : match rest with | [] => True | b :: _ => b < 0x80) :
    read_str (write_str_loop 1 0 x ++ rest) = (x, rest) := by
  cases x with
  | nil =>
    rw [show write_str_loop 1 0 ([]:List Nat) = [] by
      simp only [write_str_loop, gt_iff_lt]; rw [if_neg (by omega)]]
    rw [List.nil_append]
    cases rest with
    | nil => rfl
    | cons b r => simp only [read_str]; rw [if_pos hrest]
  | cons o xs =>
    have ho : o < 256 := hx o (by simp)
    have hxb' : ∀ b ∈ xs, b < 256 := fun b hb => hx b (by simp [hb])
    simp only [write_str_loop, List.cons_append, read_str]
    rw [if_neg (by
      rw [emit_norm 0 o 1 (by omega) (by omega) (by norm_num) (by norm_num) ho]
      generalize o / 2^1 = u
      omega)]
    exact read_str_loop_inv xs o 1 0 rest (by omega) (by omega) (by norm_num)
      (by norm_num) ho hxb' hrest

/-- Logical elements of the codec (spec §3, keylib.c dispatch).  Timestamps
(`KIND_TIME` / `KIND_NEG_TIME`) are not modelled: their encoding and
decoding go through the host `datetime` API (`write_time` / `read_time`),
which the spec treats as an external collaborator, and no claim quantifies
over them.  A `text` element carries the UTF-8 bytes of the unicode string:
the unicode⇄UTF-8 conversion is host glue (`PyUnicode_EncodeUTF8`),
external to the byte codec. -/
inductive Element where
  | null : Element
  | int : Int → Element
  | bool : Bool → Element
  | blob : List Nat → Element
  | text : List Nat → Element
  | uuid : List Nat → Element
  deriving DecidableEq

/-- Conditions under which the C encoder accepts the element: machine
integers fit in a signed 64-bit `long long` (`PyLong_AsLongLong`), and the
C negation of the magnitude is defined; byte strings are bytes; a UUID's
`get_bytes` yields exactly 16 bytes. -/
def Element.encodable : Element → Prop
  | .int i => -(2^63) < i ∧ i < 2^63
  | .blob s => ∀ b ∈ s, b < 256
  | .text s => ∀ b ∈ s, b < 256
  | .uuid s => s.length = 16 ∧ ∀ b ∈ s, b < 256
  | _ => True

instance (e : Element) : Decidable e.encodable := by
  cases e <;> simp only [Element.encodable] <;> infer_instance

/-- The element encoder `write_element` (keylib.c:375-432), restricted to
the modelled element kinds. -/
def write_element : Element → List Nat
  | .null => [KIND_NULL]
  | .int i =>
    if i < 0 then write_int (-i).toNat KIND_NEG_INTEGER 0xff
    else write_int i.toNat KIND_INTEGER 0
  | .bool b => [KIND_BOOL, if b then 1 else 0]
  | .blob s => write_str s KIND_BLOB
  | .text s => write_str s KIND_TEXT
  | .uuid s => KIND_UUID :: s

/-- Encode all elements of a tuple in order (`write_tuple`,
keylib.c:438-445). -/
def write_tuple : List Element → List Nat
  | [] => []
  | e :: t => write_element e ++ write_tuple t

/-- The element decoder `read_element` (keylib.c:712-761), restricted to
the modelled kinds; the timestamp kinds decode through the host `datetime`
API and are mapped to `none` here (no claim exercises them). -/
def read_element : List Nat → Option (Element × List Nat)
  | [] => none
  | ch :: rest =>
    if ch = KIND_NULL then some (.null, rest)
    else if ch = KIND_INTEGER then
      match read_plain_int 0 rest with
      | none => none
      | some (v, r) => some (.int (v : Int), r)
    else if ch = KIND_NEG_INTEGER then
      match read_plain_int 0xff rest with
      | none => none
      | some (v, r) => some (.int (-(v : Int)), r)
    else if ch = KIND_BOOL then
      match read_plain_int 0 rest with
      | none => none
      | some (v, r) => some (.bool (v != 0), r)
    else if ch = KIND_BLOB then
      some (.blob (read_str rest).1, (read_str rest).2)
    else if ch = KIND_TEXT then
      some (.text (read_str rest).1, (read_str rest).2)
    else if ch = KIND_UUID then
      if 16 ≤ rest.length then some (.uuid (rest.take 16), rest.drop 16) else none
    else none

theorem write_int_kind (v kind xor : Nat) (h : kind ≠ 0) :
    write_int v kind xor = kind :: write_int v 0 xor := by
  unfold write_int
  rw [if_pos h]
  simp

theorem write_str_kind (p : List Nat) (kind : Nat) (h : kind ≠ 0) :
    write_str p kind = kind :: write_str_loop 1 0 p := by
  unfold write_str
  rw [if_pos h]
  simp

/-- Decoding one element from a byte stream consumes exactly its encoding,
provided the stream continues (if at all) with a byte `< 0x80` — as it does
at every element boundary, since all kind tags are `< 0x80`. -/
theorem read_write_element (e : Element) (rest : List Nat) (he : e.encodable)
    (hrest : match rest with | [] => True | b :: _ => b < 0x80) :
    read_element (write_element e ++ rest) = some (e, rest) := by
  cases e with
  | null =>
    simp only [write_element, List.cons_append, List.nil_append, read_element]
    rw [if_pos trivial]
  | int i =>
    rcases he with ⟨hlo, hhi⟩
    simp only [write_element]
    by_cases hneg : i < 0
    · rw [if_pos hneg, write_int_kind _ _ _ (by decide), List.cons_append]
      simp only [read_element]
      rw [if_neg (by decide), if_neg (by decide), if_pos trivial]
      rw [read_write_int (-i).toNat 0xff (by
        have : (-i) < 2^63 := by omega
        omega) rest]
      simp only [Option.some.injEq, Prod.mk.injEq, and_true, Element.int.injEq]
      rw [Int.toNat_of_nonneg (by omega)]
      omega
    · rw [if_neg hneg, write_int_kind _ _ _ (by decide), List.cons_append]
      simp only [read_element]
      rw [if_neg (by decide), if_pos trivial]
      rw [read_write_int i.toNat 0 (by omega) rest]
      simp only [Option.some.injEq, Prod.mk.injEq, and_true, Element.int.injEq]
      rw [Int.toNat_of_nonneg (by omega)]
  | bool b =>
    simp only [write_element, List.cons_append, List.nil_append, read_element]
    rw [if_neg (by decide), if_neg (by decide), if_neg (by decide), if_pos trivial]
    cases b <;> simp [read_plain_int]
  | blob s =>
    simp only [write_element]
    rw [write_str_kind _ _ (by decide), List.cons_append]
    simp only [read_element]
    rw [if_neg (by decide), if_neg (by decide), if_neg (by decide), if_neg (by decide),
        if_pos trivial]
    rw [read_write_str s rest he hrest]
  | text s =>
    simp only [write_element]
    rw [write_str_kind _ _ (by decide), List.cons_append]
    simp only [read_element]
    rw [if_neg (by decide), if_neg (by decide), if_neg (by decide), if_neg (by decide),
        if_neg (by decide), if_pos trivial]
    rw [read_write_str s rest he hrest]
  | uuid s =>
    rcases he with ⟨hlen, _⟩
    simp only [write_element, List.cons_append, read_element]
    rw [if_neg (by decide), if_neg (by decide), if_neg (by decide), if_neg (by decide),
        if_neg (by decide), if_neg (by decide), if_pos trivial]
    rw [if_pos (by rw [List.length_append, hlen]; omega)]
    rw [List.take_append_of_le_length (by omega), List.take_of_length_le (by omega),
        List.drop_append_of_le_length (by omega), List.drop_eq_nil_of_le (by omega),
        List.nil_append]

/-- Claim C2: for every encodable element that is not a timestamp, decoding
the encoding returns an equal element and consumes exactly the bytes
`write_element` emitted. -/
theorem c2_element_roundtrip (e : Element) (he : e.encodable) :
    read_element (write_element e) = some (e, []) := by
  have h := read_write_element e [] he trivial
  simpa using h

/-- Witness for C2 at the element `int 5`. -/
theorem c2_witness : read_element (write_element (.int 5)) = some (.int 5, []) :=
  c2_element_roundtrip (.int 5) (by decide)

/-- The non-materialising skip `skip_element` (keylib.c:802-843).  Returns
the unconsumed remainder and the end-of-tuple flag, or `none` where the C
sets a "bad kind" exception.  Note the C advances the read pointer without
bounds checks; on the well-formed inputs of the claims the pointer stays in
range, and `List.drop` saturates where the C would overrun.  `KIND_BOOL` is
handled in the same payload-less case as `KIND_NULL`, exactly as in the C
(the boolean's 0x00/0x01 payload byte is not consumed). -/
def skip_int_tail (xor : Nat) : List Nat → Option (List Nat × Bool)
  | [] => none
  | c2 :: rest2 =>
    let ch2 := xor ^^^ c2
    let rem := if ch2 ≤ 248 ∧ ch2 > 240 then rest2.drop 1
               else if ch2 ≥ 249 then rest2.drop (8 - (255 - ch2))
               else rest2
    some (rem, rem.isEmpty)

/-- Body of `skip_element` for the four varint-backed kinds: read the
(xored) first varint byte and drop the payload bytes it announces. -/
def skip_element : List Nat → Option (List Nat × Bool)
  | [] => none
  | ch :: rest =>
    if ch = KIND_BOOL ∨ ch = KIND_NULL then
      some (rest, rest.isEmpty)
    else if ch = KIND_NEG_TIME ∨ ch = KIND_NEG_INTEGER ∨ ch = KIND_TIME ∨ ch = KIND_INTEGER then
      skip_int_tail (if ch = KIND_NEG_TIME ∨ ch = KIND_NEG_INTEGER then 0xff else 0) rest
    else if ch = KIND_TEXT ∨ ch = KIND_BLOB then
      let rem := rest.dropWhile (fun b => 0x80 &&& b != 0)
      some (rem, rem.isEmpty)
    else if ch = KIND_UUID then
      some (rest.drop 16, (rest.drop 16).isEmpty)
    else if ch = KIND_SEP then
      some (rest, true)
    else none

theorem skip_int_tail_len {xor : Nat} {l l' : List Nat} {e' : Bool}
    (h : skip_int_tail xor l = some (l', e')) : l'.length ≤ l.length := by
  cases l with
  | nil => simp [skip_int_tail] at h
  | cons c2 rest2 =>
    simp only [skip_int_tail, Option.some.injEq, Prod.mk.injEq] at h
    obtain ⟨rfl, -⟩ := h
    split_ifs <;> simp only [List.length_drop, List.length_cons] <;> omega

theorem skip_element_len {l l' : List Nat} {e' : Bool}
    (h : skip_element l = some (l', e')) : l'.length < l.length := by
  cases l with
  | nil => simp [skip_element] at h
  | cons ch rest =>
    simp only [skip_element] at h
    split_ifs at h with h1 h2 h3 h4 h5
    · simp only [Option.some.injEq, Prod.mk.injEq] at h
      obtain ⟨rfl, -⟩ := h; simp
    · have := skip_int_tail_len h
      simp only [List.length_cons]; omega
    · have := skip_int_tail_len h
      simp only [List.length_cons]; omega
    · simp only [Option.some.injEq, Prod.mk.injEq] at h
      obtain ⟨rfl, -⟩ := h
      have hle : (rest.dropWhile (fun b => 0x80 &&& b != 0)).length ≤ rest.length :=
        (List.dropWhile_suffix _).sublist.length_le
      simp only [List.length_cons]; omega
    · simp only [Option.some.injEq, Prod.mk.injEq] at h
      obtain ⟨rfl, -⟩ := h
      simp only [List.length_drop, List.length_cons]; omega
    · simp only [Option.some.injEq, Prod.mk.injEq] at h
      obtain ⟨rfl, -⟩ := h; simp

/-- The element-counting loop of `key_length` (key.c:339-353). -/
def key_length_go (l : List Nat) (eof : Bool) : Option Nat :=
  if eof then some 0
  else match h : skip_element l with
    | none => none
    | some (l', eof') =>
      match key_length_go l' eof' with
      | none => none
      | some n => some (n + 1)
termination_by l.length
decreasing_by exact skip_element_len h

/-- Number of logical elements of a Key (`key_length`, key.c:339-353);
`none` models the C's -1-with-exception result. -/
def key_length (bytes : List Nat) : Option Nat :=
  key_length_go bytes bytes.isEmpty

theorem read_plain_int_len {xor : Nat} {l : List Nat} {v : Nat} {r : List Nat}
    (h : read_plain_int xor l = some (v, r)) : r.length < l.length := by
  cases l with
  | nil => simp [read_plain_int] at h
  | cons b rest =>
    simp only [read_plain_int] at h
    split_ifs at h with h1 h2 h3 h4
    · simp only [Option.some.injEq, Prod.mk.injEq] at h
      obtain ⟨-, rfl⟩ := h; simp
    · cases rest with
      | nil => simp at h
      | cons b1 r1 =>
        simp only [Option.some.injEq, Prod.mk.injEq] at h
        obtain ⟨-, rfl⟩ := h; simp only [List.length_cons]; omega
    · rcases rest with _ | ⟨b1, _ | ⟨b2, r2⟩⟩
      · simp at h
      · simp at h
      · simp only [Option.some.injEq, Prod.mk.injEq] at h
        obtain ⟨-, rfl⟩ := h; simp only [List.length_cons]; omega
    · simp only [Option.some.injEq, Prod.mk.injEq] at h
      obtain ⟨-, rfl⟩ := h
      simp only [List.length_drop, List.length_cons]; omega

theorem read_str_loop_len : ∀ (s lb : Nat) (l : List Nat),
    (read_str_loop s lb l).2.length ≤ l.length
  | _, _, [] => by simp [read_str_loop]
  | s, lb, cb :: rest => by
    simp only [read_str_loop]
    by_cases h1 : cb < 0x80
    · rw [if_pos h1]
    · rw [if_neg h1]
      by_cases h2 : s < 7
      · rw [if_pos h2]
        have := read_str_loop_len (s+1) cb rest
        simp only [List.length_cons]; omega
      · rw [if_neg h2]
        cases rest with
        | nil => simp
        | cons lb2 rest2 =>
          dsimp only
          by_cases h3 : lb2 < 0x80
          · rw [if_pos h3]; simp
          · rw [if_neg h3]
            have := read_str_loop_len 1 lb2 rest2
            simp only [List.length_cons]; omega

theorem read_str_len (l : List Nat) : (read_str l).2.length ≤ l.length := by
  cases l with
  | nil => simp [read_str]
  | cons lb rest =>
    simp only [read_str]
    by_cases h : lb < 0x80
    · rw [if_pos h]
    · rw [if_neg h]
      have := read_str_loop_len 1 lb rest
      simp only [List.length_cons]; omega

theorem read_element_len {l : List Nat} {e : Element} {r : List Nat}
    (h : read_element l = some (e, r)) : r.length < l.length := by
  cases l with
  | nil => simp [read_element] at h
  | cons ch rest =>
    simp only [read_element] at h
    split_ifs at h with h1 h2 h3 h4 h5 h6 h7 h8
    · simp only [Option.some.injEq, Prod.mk.injEq] at h
      obtain ⟨-, rfl⟩ := h; simp
    · cases hm : read_plain_int 0 rest with
      | none => rw [hm] at h; simp at h
      | some pr =>
        obtain ⟨v, r'⟩ := pr
        rw [hm] at h
        simp only [Option.some.injEq, Prod.mk.injEq] at h
        obtain ⟨-, rfl⟩ := h
        have := read_plain_int_len hm
        simp only [List.length_cons]; omega
    · cases hm : read_plain_int 0xff rest with
      | none => rw [hm] at h; simp at h
      | some pr =>
        obtain ⟨v, r'⟩ := pr
        rw [hm] at h
        simp only [Option.some.injEq, Prod.mk.injEq] at h
        obtain ⟨-, rfl⟩ := h
        have := read_plain_int_len hm
        simp only [List.length_cons]; omega
    · cases hm : read_plain_int 0 rest with
      | none => rw [hm] at h; simp at h
      | some pr =>
        obtain ⟨v, r'⟩ := pr
        rw [hm] at h
        simp only [Option.some.injEq, Prod.mk.injEq] at h
        obtain ⟨-, rfl⟩ := h
        have := read_plain_int_len hm
        simp only [List.length_cons]; omega
    · simp only [Option.some.injEq, Prod.mk.injEq] at h
      obtain ⟨-, rfl⟩ := h
      have := read_str_len rest
      simp only [List.length_cons]; omega
    · simp only [Option.some.injEq, Prod.mk.injEq] at h
      obtain ⟨-, rfl⟩ := h
      have := read_str_len rest
      simp only [List.length_cons]; omega
    · simp only [Option.some.injEq, Prod.mk.injEq] at h
      obtain ⟨-, rfl⟩ := h
      simp only [List.length_drop, List.length_cons]; omega

/-- Repeatedly calling `keyiter_next` (key.c:487-500): materialise every
element of the byte sequence with `read_element` until it is exhausted. -/
def iter_elements : List Nat → Option (List Element)
  | [] => some []
  | b :: rest =>
    match h : read_element (b :: rest) with
    | none => none
    | some (e, r) =>
      match iter_elements r with
      | none => none
      | some es => some (e :: es)
termination_by l => l.length
decreasing_by
  have := read_element_len h
  simpa using this

/-- The `while(i-- && !eof) skip_element(...)` loop of `key_item`
(key.c:409-413). -/
def skip_n : Nat → List Nat → Bool → Option (List Nat × Bool)
  | 0, l, eof => some (l, eof)
  | n+1, l, eof =>
    if eof then some (l, eof)
    else match skip_element l with
      | none => none
      | some (l', e') => skip_n n l' e'

/-- Indexing `key_item` (key.c:397-419).  For a negative index the C
computes `i = len - i` (note: minus, not plus) and `eof |= i < 0`, then
skips; `none` models both the IndexError and decode-error exits.  If
`key_length` fails the C continues with `len = -1` and a pending exception;
that path is modelled as an error and is unreachable on well-formed keys. -/
def key_item (bytes : List Nat) (i : Int) : Option Element :=
  let setup : Option (Nat × Bool) :=
    if i < 0 then
      match key_length bytes with
      | none => none
      | some len => some (((len : Int) - i).toNat,
                          bytes.isEmpty || decide ((len : Int) - i < 0))
    else some (i.toNat, bytes.isEmpty)
  match setup with
  | none => none
  | some (n, eof) =>
    match skip_n n bytes eof with
    | none => none
    | some (l', eof') =>
      if eof' then none
      else (read_element l').map Prod.fst

/-- Claim C5 names a code bug: `skip_element` treats `KIND_BOOL` like the
payload-less `KIND_NULL` and does not consume the boolean's 0x00/0x01
payload byte, so the skip-based `key_length` of `Key(True,)` hits a "bad
kind" error (the C raises ValueError and returns -1) while iterating the
same Key materialises exactly one element. -/
theorem c5_skip_length_bug :
    key_length (write_tuple [Element.bool true]) = none ∧
    iter_elements (write_tuple [Element.bool true]) = some [Element.bool true] := by
  have henc : write_tuple [Element.bool true] = [30, 1] := by decide
  have hsk1 : skip_element [30, 1] = some ([1], false) := by decide
  have hsk2 : skip_element [1] = none := by decide
  have hre : read_element [30, 1] = some (Element.bool true, []) := by decide
  have ha : key_length_go [1] false = none := by
    rw [key_length_go]
    simp only [Bool.false_eq_true, if_false]
    split
    · rfl
    · rename_i l' eof' heq
      simp [hsk2] at heq
  have hb : key_length_go [30, 1] false = none := by
    rw [key_length_go]
    simp only [Bool.false_eq_true, if_false]
    split
    · rename_i heq
      simp [hsk1] at heq
    · rename_i l' eof' heq
      rw [hsk1] at heq
      simp only [Option.some.injEq, Prod.mk.injEq] at heq
      obtain ⟨rfl, rfl⟩ := heq
      rw [ha]
  have hi0 : iter_elements ([] : List Nat) = some [] := by rw [iter_elements]
  rw [henc]
  constructor
  · rw [key_length]
    simpa using hb
  · rw [iter_elements]
    split
    · rename_i heq
      simp [hre] at heq
    · rename_i e r heq
      rw [hre] at heq
      simp only [Option.some.injEq, Prod.mk.injEq] at heq
      obtain ⟨rfl, rfl⟩ := heq
      rw [hi0]

/-- Claim C6 names a code bug: for a negative index the C computes
`i = len - i` instead of `len + i`, so every negative index skips past the
end and raises IndexError; here `Key((0,))[-1]` yields an error where the
spec requires element `0`, which plain `Key((0,))[0]` does return. -/
theorem c6_negative_index_bug :
    key_item (write_tuple [Element.int 0]) (-1) = none ∧
    key_item (write_tuple [Element.int 0]) 0 = some (Element.int 0) := by
  have henc : write_tuple [Element.int 0] = [21, 0] := by decide
  have hsk1 : skip_element [21, 0] = some ([], true) := by decide
  have hre : read_element [21, 0] = some (Element.int 0, []) := by decide
  have h0 : key_length_go [] true = some 0 := by
    rw [key_length_go]
    simp
  have hb : key_length_go [21, 0] false = some 1 := by
    rw [key_length_go]
    simp only [Bool.false_eq_true, if_false]
    split
    · rename_i heq
      simp [hsk1] at heq
    · rename_i l' eof' heq
      rw [hsk1] at heq
      simp only [Option.some.injEq, Prod.mk.injEq] at heq
      obtain ⟨rfl, rfl⟩ := heq
      rw [h0]
  have hkl : key_length [21, 0] = some 1 := by
    rw [key_length]
    simpa using hb
  rw [henc]
  constructor
  · rw [key_item, hkl]
    decide
  · decide

/-- The tuple decoder `unpack` (keylib.c:767-795): read elements until a
`KIND_SEP` byte (which is consumed) or the end of input; the second
component is the input left after the tuple. -/
def unpack_go : List Nat → Option (List Element × List Nat)
  | [] => some ([], [])
  | b :: rest =>
    if b = KIND_SEP then some ([], rest)
    else
      match h : read_element (b :: rest) with
      | none => none
      | some (e, r) =>
        match unpack_go r with
        | none => none
        | some (es, r') => some (e :: es, r')
termination_by l => l.length
decreasing_by
  have := read_element_len h
  simpa using this

theorem unpack_go_len : ∀ (n : Nat) (l : List Nat), l.length ≤ n →
    ∀ {es : List Element} {r : List Nat}, unpack_go l = some (es, r) →
    r.length ≤ l.length ∧ (l ≠ [] → r.length < l.length) := by
  intro n
  induction n with
  | zero =>
    intro l hl es r h
    cases l with
    | nil =>
      rw [unpack_go] at h
      simp only [Option.some.injEq, Prod.mk.injEq] at h
      obtain ⟨-, rfl⟩ := h
      exact ⟨Nat.le_refl _, fun hne => absurd rfl hne⟩
    | cons b rest => simp at hl
  | succ n ih =>
    intro l hl es r h
    cases l with
    | nil =>
      rw [unpack_go] at h
      simp only [Option.some.injEq, Prod.mk.injEq] at h
      obtain ⟨-, rfl⟩ := h
      exact ⟨Nat.le_refl _, fun hne => absurd rfl hne⟩
    | cons b rest =>
      rw [unpack_go] at h
      by_cases hb : b = KIND_SEP
      · rw [if_pos hb] at h
        simp only [Option.some.injEq, Prod.mk.injEq] at h
        obtain ⟨-, rfl⟩ := h
        refine ⟨by simp, fun _ => by simp⟩
      · rw [if_neg hb] at h
        split at h
        · cases h
        · rename_i e r1 hm
          split at h
          · cases h
          · rename_i es1 r2 hu
            simp only [Option.some.injEq, Prod.mk.injEq] at h
            obtain ⟨-, rfl⟩ := h
            have hlt := read_element_len hm
            have hr1 : r1.length ≤ n := by
              simp only [List.length_cons] at hlt hl; omega
            have h2 := (ih r1 hr1 hu).1
            constructor
            · simp only [List.length_cons] at hlt ⊢; omega
            · intro _
              simp only [List.length_cons] at hlt ⊢; omega

theorem unpack_go_lt {l : List Nat} {es : List Element} {r : List Nat}
    (hne : l ≠ []) (h : unpack_go l = some (es, r)) : r.length < l.length :=
  (unpack_go_len l.length l (Nat.le_refl _) h).2 hne

/-- The batch decoding loop of `py_unpacks` (keylib.c:875-919): decode
tuples until the input is exhausted. -/
def unpacks_go : List Nat → Option (List (List Element))
  | [] => some []
  | b :: rest =>
    match h : unpack_go (b :: rest) with
    | none => none
    | some (t, r) =>
      match unpacks_go r with
      | none => none
      | some ts => some (t :: ts)
termination_by l => l.length
decreasing_by
  have := unpack_go_lt (by simp) h
  simpa using this

/-- The three observable outcomes of the Python-level entry points: a raised
exception (`NULL` return), the `None` NotMatched sentinel, and a value. -/
inductive PyResult (α : Type) where
  | err : PyResult α
  | notMatched : PyResult α
  | ok : α → PyResult α
  deriving DecidableEq

/-- `py_unpack` (keylib.c:850-868): on a matching first argument, decode one
tuple from the remainder (bytes past the first tuple are ignored). -/
def py_unpack (pre s : List Nat) : PyResult (List Element) :=
  if s.length < pre.length ∨ s.take pre.length ≠ pre then .notMatched
  else
    match unpack_go (s.drop pre.length) with
    | none => .err
    | some (t, _) => .ok t

/-- `py_unpacks` (keylib.c:875-919): on a match, decode the whole remainder
as a list of tuples. -/
def py_unpacks (pre s : List Nat) : PyResult (List (List Element)) :=
  if s.length < pre.length ∨ s.take pre.length ≠ pre then .notMatched
  else
    match unpacks_go (s.drop pre.length) with
    | none => .err
    | some ts => .ok ts

/-- `key_from_raw` (key.c:171-187): on a match, a Key holding the raw bytes
past the first argument; mismatch yields the `None` sentinel. -/
def key_from_raw (pre raw : List Nat) : PyResult (List Nat) :=
  if raw.length < pre.length ∨ raw.take pre.length ≠ pre then .notMatched
  else .ok (raw.drop pre.length)

/-- One item of `py_packs`' second argument: a tuple, an existing Key (its
bytes are copied verbatim), or a bare element (keylib.c:485-510). -/
inductive PackItem where
  | tup : List Element → PackItem
  | key : List Nat → PackItem
  | el : Element → PackItem

/-- The bytes one pack item contributes (keylib.c:487-494). -/
def write_item : PackItem → List Nat
  | .tup t => write_tuple t
  | .key b => b
  | .el e => write_element e

/-- The list loop of `py_packs` (keylib.c:495-510): a `KIND_SEP` byte before
every item except the first. -/
def sep_items : List PackItem → List Nat
  | [] => []
  | [i] => write_item i
  | i :: i2 :: rest => write_item i ++ KIND_SEP :: sep_items (i2 :: rest)

/-- `py_packs`' second argument: a list (separated items) or anything else
(one item, no separators). -/
inductive PackValue where
  | single : PackItem → PackValue
  | list : List PackItem → PackValue

/-- `py_packs` (keylib.c:451-517): the first argument's bytes followed by
the encoded payload. -/
def py_packs (pre : List Nat) : PackValue → List Nat
  | .single i => pre ++ write_item i
  | .list l => pre ++ sep_items l

theorem write_element_shape (e : Element) :
    ∃ b bs, write_element e = b :: bs ∧ b < 0x80 ∧ b ≠ KIND_SEP := by
  cases e with
  | null => exact ⟨KIND_NULL, [], rfl, by decide, by decide⟩
  | int i =>
    by_cases h : i < 0
    · refine ⟨KIND_NEG_INTEGER, write_int (-i).toNat 0 0xff, ?_, by decide, by decide⟩
      rw [write_element, if_pos h, write_int_kind _ _ _ (by decide)]
    · refine ⟨KIND_INTEGER, write_int i.toNat 0 0, ?_, by decide, by decide⟩
      rw [write_element, if_neg h, write_int_kind _ _ _ (by decide)]
  | bool b => exact ⟨KIND_BOOL, [if b then 1 else 0], rfl, by decide, by decide⟩
  | blob s =>
    refine ⟨KIND_BLOB, write_str_loop 1 0 s, ?_, by decide, by decide⟩
    rw [write_element, write_str_kind _ _ (by decide)]
  | text s =>
    refine ⟨KIND_TEXT, write_str_loop 1 0 s, ?_, by decide, by decide⟩
    rw [write_element, write_str_kind _ _ (by decide)]
  | uuid s => exact ⟨KIND_UUID, s, rfl, by decide, by decide⟩

theorem write_element_ne_nil (e : Element) : write_element e ≠ [] := by
  obtain ⟨b, bs, heq, -, -⟩ := write_element_shape e
  simp [heq]

theorem write_tuple_ne_nil {t : List Element} (h : t ≠ []) : write_tuple t ≠ [] := by
  cases t with
  | nil => exact absurd rfl h
  | cons e ts =>
    rw [write_tuple]
    obtain ⟨b, bs, heq, -, -⟩ := write_element_shape e
    simp [heq]

theorem tuple_head_lt (t : List Element) (tail : List Nat)
    (htail : ∀ b, tail.head? = some b → b < 0x80) :
    ∀ b, (write_tuple t ++ tail).head? = some b → b < 0x80 := by
  cases t with
  | nil => simpa [write_tuple] using htail
  | cons e ts =>
    intro b hb
    obtain ⟨b0, bs, heq, hlt, -⟩ := write_element_shape e
    rw [write_tuple, heq] at hb
    simp only [List.cons_append, List.head?_cons, Option.some.injEq] at hb
    omega

theorem match_head (l : List Nat) :
    (∀ b, l.head? = some b → b < 0x80) →
    match l with | [] => True | b :: _ => b < 0x80 := by
  cases l with
  | nil => exact fun _ => trivial
  | cons b r => exact fun h => h b rfl

/-- Decoding a packed tuple with `unpack` consumes exactly its encoding plus
the separator after it, when there is one. -/
theorem unpack_go_tuple : ∀ (t : List Element), (∀ e ∈ t, e.encodable) →
    (∀ r, unpack_go (write_tuple t ++ KIND_SEP :: r) = some (t, r)) ∧
    unpack_go (write_tuple t) = some (t, [])
  | [], _ => by
    constructor
    · intro r
      rw [write_tuple, List.nil_append, unpack_go, if_pos rfl]
    · rw [write_tuple, unpack_go]
  | e :: ts, ht => by
    have hts : ∀ x ∈ ts, x.encodable := fun x hx => ht x (List.mem_cons_of_mem e hx)
    have ih := unpack_go_tuple ts hts
    obtain ⟨b, bs, heq, hlt, hbsep⟩ := write_element_shape e
    constructor
    · intro r
      have hre : read_element (write_element e ++ (write_tuple ts ++ KIND_SEP :: r)) =
          some (e, write_tuple ts ++ KIND_SEP :: r) :=
        read_write_element e _ (ht e (List.mem_cons_self e ts))
          (match_head _ (tuple_head_lt ts (KIND_SEP :: r)
            (by intro b hb; simp [KIND_SEP] at hb; omega)))
      rw [heq] at hre
      rw [write_tuple, heq]
      simp only [List.cons_append, List.append_assoc] at hre ⊢
      rw [unpack_go, if_neg hbsep]
      split
      · rename_i heq2
        simp [hre] at heq2
      · rename_i e' r' heq2
        rw [hre] at heq2
        simp only [Option.some.injEq, Prod.mk.injEq] at heq2
        obtain ⟨rfl, rfl⟩ := heq2
        rw [ih.1 r]
    · have hh : ∀ b, (write_tuple ts).head? = some b → b < 0x80 := by
        intro b hb
        exact tuple_head_lt ts [] (by intro c hc; simp at hc) b (by simpa using hb)
      have hre : read_element (write_element e ++ write_tuple ts) =
          some (e, write_tuple ts) :=
        read_write_element e _ (ht e (List.mem_cons_self e ts)) (match_head _ hh)
      rw [heq] at hre
      rw [write_tuple, heq]
      simp only [List.cons_append] at hre ⊢
      rw [unpack_go, if_neg hbsep]
      split
      · rename_i heq2
        simp [hre] at heq2
      · rename_i e' r' heq2
        rw [hre] at heq2
        simp only [Option.some.injEq, Prod.mk.injEq] at heq2
        obtain ⟨rfl, rfl⟩ := heq2
        rw [ih.2]

theorem unpacks_go_cons {l : List Nat} {t : List Element} {r : List Nat}
    {ts : List (List Element)} (hne : l ≠ []) (h1 : unpack_go l = some (t, r))
    (h2 : unpacks_go r = some ts) : unpacks_go l = some (t :: ts) := by
  cases l with
  | nil => exact absurd rfl hne
  | cons b rest =>
    rw [unpacks_go]
    split
    · rename_i heq
      simp [h1] at heq
    · rename_i t' r' heq
      rw [h1] at heq
      simp only [Option.some.injEq, Prod.mk.injEq] at heq
      obtain ⟨rfl, rfl⟩ := heq
      rw [h2]

/-- Batch decoding of separated tuples succeeds exactly on the byte string
`py_packs` emits, provided the final tuple is nonempty (an empty final tuple
contributes no bytes and no separator, so `unpacks` cannot see it). -/
theorem unpacks_sep : ∀ (L : List (List Element)),
    (∀ t ∈ L, ∀ e ∈ t, e.encodable) → L.getLast? ≠ some [] →
    unpacks_go (sep_items (L.map PackItem.tup)) = some L
  | [], _, _ => by
    rw [List.map_nil, sep_items, unpacks_go]
  | [t], henc, hlast => by
    have ht : t ≠ [] := by
      intro h
      rw [h] at hlast
      exact hlast (by simp)
    have htenc : ∀ e ∈ t, e.encodable := henc t (by simp)
    rw [List.map_cons, List.map_nil, sep_items, write_item]
    refine unpacks_go_cons (write_tuple_ne_nil ht) (unpack_go_tuple t htenc).2 ?_
    rw [unpacks_go]
  | t :: t2 :: L, henc, hlast => by
    have hrec : unpacks_go (sep_items ((t2 :: L).map PackItem.tup)) = some (t2 :: L) := by
      refine unpacks_sep (t2 :: L) (fun x hx => henc x (List.mem_cons_of_mem t hx)) ?_
      rw [List.getLast?_cons_cons] at hlast
      exact hlast
    have htenc : ∀ e ∈ t, e.encodable := henc t (by simp)
    rw [List.map_cons, List.map_cons, sep_items, write_item]
    rw [show PackItem.tup t2 :: List.map PackItem.tup L = (t2 :: L).map PackItem.tup from rfl]
    refine unpacks_go_cons ?_ ((unpack_go_tuple t htenc).1 _) hrec
    simp

/-- Claim C4, corrected: the batch round-trip `unpacks(p, packs(p, L)) = L`
holds whenever the final tuple of `L` is nonempty (in particular for every
`L` with no empty tuples, and for `L = []`); an empty final tuple is lost,
as `c4_counterexample` shows. -/
theorem c4_batch_roundtrip_amended (pre : List Nat) (L : List (List Element))
    (henc : ∀ t ∈ L, ∀ e ∈ t, e.encodable) (hlast : L.getLast? ≠ some []) :
    py_unpacks pre (py_packs pre (PackValue.list (L.map PackItem.tup))) = PyResult.ok L := by
  rw [py_packs, py_unpacks]
  rw [if_neg ?hc]
  case hc =>
    rw [not_or]
    constructor
    · simp only [List.length_append, not_lt]
      omega
    · rw [List.take_append_of_le_length (Nat.le_refl _), List.take_length]
      simp
  rw [List.drop_append_of_le_length (Nat.le_refl _), List.drop_length, List.nil_append]
  rw [unpacks_sep L henc hlast]

/-- The batch round-trip fails on the one-element list holding the empty
tuple: it packs to the empty byte string, which unpacks to the empty list. -/
theorem c4_counterexample :
    py_unpacks [] (py_packs [] (PackValue.list [PackItem.tup []])) ≠
      PyResult.ok [([] : List Element)] := by
  have h1 : py_packs [] (PackValue.list [PackItem.tup []]) = [] := rfl
  have h2 : unpacks_go [] = some [] := by rw [unpacks_go]
  rw [h1, py_unpacks, if_neg (by simp)]
  simp only [List.length_nil, List.drop_nil]
  rw [h2]
  simp

theorem c4_witness :
    ((∀ t ∈ [[Element.int 7]], ∀ e ∈ t, e.encodable) ∧
      ([[Element.int 7]] : List (List Element)).getLast? ≠ some []) ∧
    py_unpacks [9] (py_packs [9] (PackValue.list ([[Element.int 7]].map PackItem.tup))) =
      PyResult.ok [[Element.int 7]] :=
  ⟨⟨by decide, by decide⟩,
    c4_batch_roundtrip_amended [9] [[Element.int 7]] (by decide) (by decide)⟩

/-- Claim C8, corrected: `pack("", ("a",))` is the TEXT kind byte followed
by `0xB0` and then `0xC0` — the escaped payload byte `0x80 | (0x61 >> 1)`
and the trailer `0x80 | ((0x61 & 1) << 6)`, not the spec's `0xC2, 0xB0`. -/
theorem c8_pack_single_char_amended :
    py_packs [] (PackValue.single (PackItem.tup [Element.text [0x61]])) =
      [KIND_TEXT, 0xB0, 0xC0] := by decide

/-- The byte string of `c8_pack_single_char_amended` is not the spec's
`TEXT, 0xC2, 0xB0`. -/
theorem c8_counterexample :
    py_packs [] (PackValue.single (PackItem.tup [Element.text [0x61]])) ≠
      [KIND_TEXT, 0xC2, 0xB0] := by decide

/-- Claim C9: a first-argument mismatch (input shorter, or differing within
the compared span) makes `unpack`, `unpacks` and `Key.from_raw` all return
the NotMatched sentinel, not an error. -/
theorem c9_mismatch_not_error (pre s : List Nat)
    (h : s.length < pre.length ∨ s.take pre.length ≠ pre) :
    py_unpack pre s = .notMatched ∧ py_unpacks pre s = .notMatched ∧
      key_from_raw pre s = .notMatched := by
  refine ⟨?_, ?_, ?_⟩
  · rw [py_unpack, if_pos h]
  · rw [py_unpacks, if_pos h]
  · rw [key_from_raw, if_pos h]

theorem c9_witness :
    (([0] : List Nat).length < ([1] : List Nat).length ∨
      ([0] : List Nat).take ([1] : List Nat).length ≠ [1]) ∧
    (py_unpack [1] [0] = .notMatched ∧ py_unpacks [1] [0] = .notMatched ∧
      key_from_raw [1] [0] = .notMatched) :=
  ⟨by decide, c9_mismatch_not_error [1] [0] (by decide)⟩

/-- Claim C10: when the input equals the first argument exactly, zero bytes
remain, and `unpack` returns the empty tuple while `unpacks` returns the
empty list — a successful match distinct from NotMatched and from an
error. -/
theorem c10_exact_match_empty (p : List Nat) :
    py_unpack p p = .ok [] ∧ py_unpacks p p = .ok [] := by
  have hc : ¬(p.length < p.length ∨ p.take p.length ≠ p) := by
    simp
  constructor
  · rw [py_unpack, if_neg hc, List.drop_length, unpack_go]
  · rw [py_unpacks, if_neg hc, List.drop_length, unpacks_go]

/-- Sign of `memcmp(a, b, minsz)` over the first `min(|a|, |b|)` bytes (the
C uses the result only through comparisons with zero). -/
def memcmpInt : List Nat → List Nat → Int
  | [], _ => 0
  | _ :: _, [] => 0
  | a :: as, b :: bs => if a < b then -1 else if b < a then 1 else memcmpInt as bs

/-- The tuple branch of `key_richcompare` (key.c:268-299): encode one tuple
element at a time, `memcmp` it against the corresponding span of the Key's
remaining bytes, advance past the compared span, and on exhaustion call the
side with bytes (resp. elements) left the greater. -/
def ktc_go : List Nat → List Element → Int
  | [], [] => 0
  | _ :: _, [] => 1
  | [], _ :: _ => -1
  | kh :: kt, e :: ts =>
    if memcmpInt (kh :: kt) (write_element e) = 0 then
      ktc_go ((kh :: kt).drop (min (kh :: kt).length (write_element e).length)) ts
    else memcmpInt (kh :: kt) (write_element e)

/-- `key_richcompare` comparing a Key (its bytes) against a tuple. -/
def key_tuple_cmp (bytes : List Nat) (other : List Element) : Int :=
  ktc_go bytes other

/-- Plain lexicographic three-way byte comparison: first difference decides,
a strict proper initial run is smaller. -/
def lexCmp (a b : List Nat) : Int :=
  if a = b then 0 else if bytesLT a b then -1 else 1

/-- The boundary runs on which the chunked comparison of `ktc_go` diverges
from whole-stream comparison: the Key's bytes match every element of the
tuple except the last exactly, then run out strictly inside the last
element's encoding with at least one byte of it present. -/
def stub_run : List Nat → List Element → Bool
  | _, [] => false
  | k, [e] =>
    decide (k ≠ []) && decide (k.length < (write_element e).length) &&
      decide (k = (write_element e).take k.length)
  | k, e :: e2 :: ts =>
    decide ((write_element e).length ≤ k.length) &&
      decide (k.take (write_element e).length = write_element e) &&
      stub_run (k.drop (write_element e).length) (e2 :: ts)

theorem bytesLT_head_gt {x y : Nat} (h : y < x) (as bs : List Nat) :
    bytesLT (x :: as) (y :: bs) = false := by
  rw [bytesLT, if_neg (by omega), if_pos h]

theorem bytesLT_nil_right : ∀ l : List Nat, bytesLT l [] = false
  | [] => rfl
  | _ :: _ => rfl

theorem lexCmp_cons (c : Nat) (x y : List Nat) : lexCmp (c :: x) (c :: y) = lexCmp x y := by
  rw [lexCmp, lexCmp, bytesLT_cons_self]
  by_cases h : x = y
  · rw [if_pos h, if_pos (by rw [h])]
  · rw [if_neg h, if_neg (by simp [h])]

theorem lexCmp_strip : ∀ (w x y : List Nat), lexCmp (w ++ x) (w ++ y) = lexCmp x y
  | [], _, _ => rfl
  | c :: w', x, y => by
    simp only [List.cons_append]
    rw [lexCmp_cons]
    exact lexCmp_strip w' x y

theorem lexCmp_nil_left {l : List Nat} (h : l ≠ []) : lexCmp [] l = -1 := by
  rw [lexCmp, if_neg (fun e => h e.symm), if_pos (bytesLT_nil_of_ne_nil l h)]

theorem lexCmp_nil_right {l : List Nat} (h : l ≠ []) : lexCmp l [] = 1 := by
  rw [lexCmp, if_neg h, bytesLT_nil_right, if_neg (by simp)]

theorem memcmp_eq_zero_iff : ∀ (k w : List Nat),
    memcmpInt k w = 0 ↔ k.take w.length = w.take k.length
  | [], w => by simp [memcmpInt]
  | a :: as, [] => by simp [memcmpInt]
  | a :: as, b :: bs => by
    rw [memcmpInt]
    by_cases h1 : a < b
    · rw [if_pos h1]
      simp only [List.length_cons, List.take_succ_cons]
      constructor
      · intro h; exact absurd h (by decide)
      · intro h
        simp only [List.cons.injEq] at h
        omega
    · rw [if_neg h1]
      by_cases h2 : b < a
      · rw [if_pos h2]
        simp only [List.length_cons, List.take_succ_cons]
        constructor
        · intro h; exact absurd h (by decide)
        · intro h
          simp only [List.cons.injEq] at h
          omega
      · rw [if_neg h2]
        have hab : a = b := by omega
        subst hab
        simp only [List.length_cons, List.take_succ_cons, List.cons.injEq, true_and]
        exact memcmp_eq_zero_iff as bs

theorem bytesLT_take_lt : ∀ (l : List Nat) (n : Nat), n < l.length →
    bytesLT (l.take n) l = true
  | [], n, h => by simp at h
  | c :: cs, 0, _ => by
    rw [List.take_zero]
    exact bytesLT_nil_of_ne_nil _ (by simp)
  | c :: cs, n + 1, h => by
    rw [List.take_succ_cons, bytesLT_cons_self]
    exact bytesLT_take_lt cs n (by simp at h; omega)

theorem memcmp_neq : ∀ (k w : List Nat), memcmpInt k w ≠ 0 →
    ∀ rest, lexCmp k (w ++ rest) = memcmpInt k w
  | [], w, h, rest => absurd (by rw [memcmpInt]) h
  | a :: as, [], h, rest => absurd (by rw [memcmpInt]) h
  | a :: as, b :: bs, h, rest => by
    rw [memcmpInt] at h ⊢
    by_cases h1 : a < b
    · rw [if_pos h1] at h ⊢
      rw [lexCmp, List.cons_append, if_neg (by simp; omega),
        if_pos (bytesLT_head_lt h1 _ _)]
    · rw [if_neg h1] at h ⊢
      by_cases h2 : b < a
      · rw [if_pos h2] at h ⊢
        rw [lexCmp, List.cons_append, if_neg (by simp; omega),
          if_neg (by rw [bytesLT_head_gt h2]; simp)]
      · rw [if_neg h2] at h ⊢
        have hab : a = b := by omega
        subst hab
        rw [List.cons_append, lexCmp_cons]
        exact memcmp_neq as bs h rest

theorem memcmp_short {k w : List Nat} (h : memcmpInt k w = 0)
    (hlen : k.length < w.length) (rest : List Nat) : lexCmp k (w ++ rest) = -1 := by
  have htake : k = w.take k.length := by
    have := (memcmp_eq_zero_iff k w).mp h
    rwa [List.take_of_length_le (by omega)] at this
  have htake2 : k = (w ++ rest).take k.length := by
    rw [List.take_append_of_le_length (by omega)]
    exact htake
  rw [lexCmp, if_neg, if_pos]
  · rw [htake2]
    exact bytesLT_take_lt _ _ (by rw [List.length_append]; omega)
  · intro hk
    have : k.length = (w ++ rest).length := by rw [hk]
    rw [List.length_append] at this
    omega

theorem stub_memcmp (k : List Nat) (e : Element) (ts : List Element)
    (h : stub_run k (e :: ts) = true) : memcmpInt k (write_element e) = 0 := by
  cases ts with
  | nil =>
    rw [stub_run] at h
    simp only [Bool.and_eq_true, decide_eq_true_eq] at h
    obtain ⟨⟨-, h2⟩, h3⟩ := h
    rw [memcmp_eq_zero_iff, List.take_of_length_le (Nat.le_of_lt h2)]
    exact h3
  | cons e2 ts2 =>
    rw [stub_run] at h
    simp only [Bool.and_eq_true, decide_eq_true_eq] at h
    obtain ⟨⟨h1, h2⟩, -⟩ := h
    rw [memcmp_eq_zero_iff, h2, List.take_of_length_le h1]

/-- Claim C7, corrected: the chunked stream comparison agrees with plain
lexicographic comparison of the Key's bytes against the tuple's full
encoding — except on the `stub_run` boundary, where the Key's bytes end
strictly inside the final element's encoding while matching it so far: the
C then reports equality although the bytes differ from the full encoding
(`c7_counterexample`). -/
theorem c7_stream_compare_amended (k : List Nat) (t : List Element) :
    key_tuple_cmp k t = if stub_run k t then 0 else lexCmp k (write_tuple t) := by
  rw [key_tuple_cmp]
  induction t generalizing k with
  | nil =>
    cases k with
    | nil =>
      rw [ktc_go, stub_run, write_tuple, lexCmp, if_pos rfl]
      simp
    | cons kh kt =>
      rw [ktc_go, stub_run, write_tuple, lexCmp_nil_right (by simp)]
      simp
  | cons e ts ih =>
    cases k with
    | nil =>
      rw [ktc_go]
      have hs : stub_run [] (e :: ts) = false := by
        cases ts with
        | nil => rw [stub_run]; simp
        | cons e2 ts2 =>
          rw [stub_run]
          have hne := write_element_ne_nil e
          have hpos : ¬((write_element e).length ≤ 0) := by
            have : (write_element e).length ≠ 0 := by
              simpa [List.length_eq_zero] using hne
            omega
          simp [hpos]
      rw [hs, write_tuple]
      rw [lexCmp_nil_left (by obtain ⟨b, bs, heq, -, -⟩ := write_element_shape e; simp [heq])]
      simp
    | cons kh kt =>
      rw [ktc_go]
      by_cases hc : memcmpInt (kh :: kt) (write_element e) = 0
      · rw [if_pos hc]
        by_cases hlen : (write_element e).length ≤ (kh :: kt).length
        · have hmin : min (kh :: kt).length (write_element e).length =
              (write_element e).length := Nat.min_eq_right hlen
          rw [hmin]
          have htake : (kh :: kt).take (write_element e).length = write_element e := by
            have h0 := (memcmp_eq_zero_iff _ _).mp hc
            rwa [List.take_of_length_le hlen] at h0
          have hsplit : kh :: kt =
              write_element e ++ (kh :: kt).drop (write_element e).length := by
            conv_lhs => rw [← List.take_append_drop (write_element e).length (kh :: kt)]
            rw [htake]
          have hstub : stub_run (kh :: kt) (e :: ts) =
              stub_run ((kh :: kt).drop (write_element e).length) ts := by
            cases ts with
            | nil =>
              rw [stub_run, stub_run]
              have hnlt : ¬((kh :: kt).length < (write_element e).length) := by omega
              simp only [List.length_cons] at hnlt
              simp [hnlt]
            | cons e2 ts2 =>
              rw [stub_run]
              have hlen2 : (write_element e).length ≤ kt.length + 1 := by
                simpa using hlen
              simp [hlen2, htake]
          rw [ih, hstub]
          have hlex : lexCmp (kh :: kt) (write_tuple (e :: ts)) =
              lexCmp ((kh :: kt).drop (write_element e).length) (write_tuple ts) := by
            rw [write_tuple]
            conv_lhs => rw [hsplit]
            exact lexCmp_strip _ _ _
          rw [hlex]
        · have hlen' : (kh :: kt).length < (write_element e).length := by omega
          have hmin : min (kh :: kt).length (write_element e).length =
              (kh :: kt).length := Nat.min_eq_left (by omega)
          rw [hmin, List.drop_length]
          have htake : kh :: kt = (write_element e).take (kh :: kt).length := by
            have h0 := (memcmp_eq_zero_iff _ _).mp hc
            rwa [List.take_of_length_le (by omega)] at h0
          cases ts with
          | nil =>
            rw [ktc_go]
            have hs : stub_run (kh :: kt) [e] = true := by
              rw [stub_run]
              simp only [Bool.and_eq_true, decide_eq_true_eq]
              exact ⟨⟨by simp, hlen'⟩, htake⟩
            rw [hs]
            simp
          | cons e2 ts2 =>
            rw [ktc_go]
            have hs : stub_run (kh :: kt) (e :: e2 :: ts2) = false := by
              rw [stub_run]
              have hlen2 : ¬((write_element e).length ≤ kt.length + 1) := by
                simpa using hlen
              simp [hlen2]
            rw [hs, write_tuple]
            simp only [Bool.false_eq_true, if_false]
            exact (memcmp_short hc hlen' _).symm
      · rw [if_neg hc]
        have hs : stub_run (kh :: kt) (e :: ts) = false := by
          cases hsr : stub_run (kh :: kt) (e :: ts) with
          | false => rfl
          | true => exact absurd (stub_memcmp _ _ _ hsr) hc
        rw [hs, write_tuple]
        simp only [Bool.false_eq_true, if_false]
        exact (memcmp_neq _ _ hc _).symm

/-- The Key holding the single byte `0x15` compares equal to the tuple
`(0,)` although `(0,)` encodes to the two bytes `0x15 0x00`. -/
theorem c7_counterexample :
    key_tuple_cmp [KIND_INTEGER] [Element.int 0] = 0 ∧
      write_tuple [Element.int 0] ≠ [KIND_INTEGER] := by decide

end Acid
